import Mathlib

/-!
Verification of the dlt Normalize stage (`src/dlt/normalize/normalize.py`).

The definitions below are a shallow embedding of the Python source.  Python
lists become `List`, Python dicts become ordered association lists with
python dict semantics (insertion order preserved, assignment to an existing
key replaces the value in place), fallible operations (index errors, key
errors, raised exceptions) return `Option` or `Except`.
-/

namespace DltNormalize

open List

/-! ### FileGrouper: `Normalize.group_worker_files` (normalize.py lines 287-302) -/

/-- Modelled from the spec: `dlt.common.utils.chunks` is imported by
normalize.py but its code is not under src/.  Spec section 4.1 describes it:
chunk the list into successive contiguous groups of size `n`
(the Python source iterates `seq[i:i+n]` for `i in range(0, len(seq), n)`;
`n = 0` would raise, the caller always passes `n >= 1`). -/
def chunks : List α → Nat → List (List α)
  | _, 0 => []
  | [], _ + 1 => []
  | x :: xs, n + 1 => ((x :: xs).take (n + 1)) :: chunks ((x :: xs).drop (n + 1)) (n + 1)
termination_by l _ => l.length
decreasing_by
  simp only [List.drop_succ_cons, List.length_cons, List.length_drop]
  omega

/-- Python list indexing semantics: index `i` (possibly negative) into a list
of length `n` resolves to position `i + n` when `i < 0`, else `i`; out of
range raises `IndexError` (here: `none`). -/
def pyResolveIndex (n : Nat) (i : Int) : Option Nat :=
  let j : Int := if i < 0 then i + n else i
  if h : 0 ≤ j ∧ j < n then some j.toNat else none

/-- Embeds `chunk_files[i].append(f)` for a Python (possibly negative)
index `i`: the group at the resolved position grows by `f` at its end. -/
def pyAppendAt (cf : List (List α)) (i : Int) (f : α) : Option (List (List α)) :=
  match pyResolveIndex cf.length i with
  | none => none
  | some j => some (cf.set j ((cf.getD j []) ++ [f]))

/-- Embeds the inner `for idx, file in enumerate(reversed(chunk_files.pop()))`
loop of `group_worker_files`: each `file` is appended to the group at Python
index `-l_idx - idx - remainder_l`.  `files` is the reversed popped chunk,
`idx` the running enumeration index. -/
def distributeFiles (cf : List (List α)) (files : List α) (idx l_idx rem : Nat) :
    Option (List (List α)) :=
  match files with
  | [] => some cf
  | f :: rest =>
    match pyAppendAt cf (-(l_idx + idx + rem : Int)) f with
    | none => none
    | some cf' => distributeFiles cf' rest (idx + 1) l_idx rem

/-- Embeds the `while remainder_l > 0` loop of `group_worker_files`.  Each
iteration pops the last chunk, distributes its files (reversed) over the
remaining groups, decrements `remainder_l` and sets `l_idx = idx + 1`
(which equals the popped chunk length).  Popping an empty list or an
out-of-range index raises in Python (here: `none`); the popped chunk being
empty would leave the Python `idx` unbound (here: `none`); both are shown
unreachable. -/
def redistribute : Nat → Nat → List (List α) → Option (List (List α))
  | 0, _, cf => some cf
  | rem + 1, l_idx, cf =>
    match cf.getLast? with
    | none => none
    | some last =>
      if last.isEmpty then none
      else
        match distributeFiles cf.dropLast last.reverse 0 l_idx (rem + 1) with
        | none => none
        | some cf' => redistribute rem last.length cf'

/-- Embeds `Normalize.group_worker_files` (normalize.py lines 287-302):
sort the files, chunk into groups of size `max(len(files) // no_groups, 1)`,
then redistribute the surplus chunks.  `no_groups = 0` would raise
`ZeroDivisionError` in Python (here: `none`). -/
def group_worker_files (files : List String) (no_groups : Nat) :
    Option (List (List String)) :=
  if no_groups = 0 then none
  else
    let sorted := files.mergeSort (fun a b => decide (a ≤ b))
    let chunk_size := max (sorted.length / no_groups) 1
    let chunk_files := chunks sorted chunk_size
    redistribute (chunk_files.length - no_groups) 0 chunk_files

/-- Invariant of the `while` loop of `group_worker_files`: `prev` is the
current `l_idx`, and the list holds, from the next chunk to be popped
backwards, the chunks the remaining iterations will pop; adjacent values of
`l_idx` plus the popped chunk length never exceed the surviving group
count `N`. -/
def chain (N : Nat) : Nat → List (List α) → Prop
  | _, [] => True
  | prev, g :: gs => prev + g.length ≤ N ∧ chain N g.length gs

/-! ### Writer metrics and per-table aggregation: `Normalize.spool_files`
(normalize.py lines 386-398) -/

/-- Modelled from the spec: `ParsedLoadJobFileName` (dlt.common.storages,
not under src/) names the parts of a job file name
`<table>.<job_id>.<format>` (spec section 6, File naming); the claims use
only the table-name component but the whole name is the dict key. -/
structure ParsedLoadJobFileName where
  table_name : String
  file_id : String
  file_format : String
deriving DecidableEq, Repr

/-- Modelled from the spec: `ParsedLoadJobFileName.parse` splits the job
file name `<table>.<job_id>.<format>` at the dots; a name of any other
shape raises in Python (here: `none`). -/
def ParsedLoadJobFileName.parse (s : String) : Option ParsedLoadJobFileName :=
  match s.toList.splitOn '.' with
  | [t, i, f] => some ⟨t.asString, i.asString, f.asString⟩
  | _ => none

/-- Modelled from the spec: `DataWriterMetrics` (dlt.common.data_writers,
not under src/) is the per-produced-file record
`(file_path, items_count, bytes, created_at, last_modified_at)`
(spec section 3); the claims use only the path and the item count. -/
structure DataWriterMetrics where
  file_path : String
  items_count : Int
deriving DecidableEq, Repr

/-- Modelled from the spec: the neutral zero metrics value
`EMPTY_DATA_WRITER_METRICS`. -/
def EMPTY_DATA_WRITER_METRICS : DataWriterMetrics := ⟨"", 0⟩

/-- Modelled from the spec: metrics addition (used through Python `sum`):
item counts add, and spec section 3 requires an associative sum with the
neutral zero value; the combined path is kept only when both agree. -/
def DataWriterMetrics.add (a b : DataWriterMetrics) : DataWriterMetrics :=
  ⟨if a.file_path = b.file_path then a.file_path else "", a.items_count + b.items_count⟩

/-- Python dict assignment `d[k] = v` on an insertion-ordered dict: the
first pair with key `k` is replaced in place, otherwise the pair is
appended (a dict built only by assignments never holds a key twice). -/
def pyDictSet [DecidableEq K] : List (K × V) → K → V → List (K × V)
  | [], k, v => [(k, v)]
  | p :: ps, k, v => if p.1 = k then (k, v) :: ps else p :: pyDictSet ps k v

/-- Python dict lookup `d[k]` (`none` models `KeyError`). -/
def pyDictGet [DecidableEq K] (d : List (K × V)) (k : K) : Option V :=
  (d.find? (fun p => decide (p.1 = k))).map Prod.snd

/-- Embeds the dict comprehension
`{ParsedLoadJobFileName.parse(m.file_path): m for m in writer_metrics}`
(normalize.py line 392) starting from dict `d`: iterate in order with
python dict semantics; a parse failure raises (here: `none`). -/
def jobMetricsFrom (d : List (ParsedLoadJobFileName × DataWriterMetrics)) :
    List DataWriterMetrics → Option (List (ParsedLoadJobFileName × DataWriterMetrics))
  | [] => some d
  | m :: ms =>
    match ParsedLoadJobFileName.parse m.file_path with
    | none => none
    | some k => jobMetricsFrom (pyDictSet d k m) ms

/-- The `job_metrics` dict of `spool_files` (normalize.py line 392). -/
def job_metrics (ms : List DataWriterMetrics) :
    Option (List (ParsedLoadJobFileName × DataWriterMetrics)) :=
  jobMetricsFrom [] ms

/-- Embeds `itertools.groupby`: split a list into the maximal runs of
adjacent elements sharing a key, returned as (key, run) pairs in order.
The recursion builds the runs from the right; since maximal runs are
canonical this yields exactly the groups `itertools.groupby` enumerates
left to right: an element joins the following run exactly when it carries
that key of that run. -/
def runsBy (key : α → β) [DecidableEq β] : List α → List (β × List α)
  | [] => []
  | a :: rest =>
    match runsBy key rest with
    | [] => [(key a, [a])]
    | (k, grp) :: more =>
      if key a = k then (k, a :: grp) :: more
      else (key a, [a]) :: (k, grp) :: more

/-- Python `sum(map(lambda pair: pair[1], metrics), EMPTY_DATA_WRITER_METRICS)`
(normalize.py line 394): a left fold of metrics addition over the run. -/
def sumMetrics (grp : List (ParsedLoadJobFileName × DataWriterMetrics)) :
    DataWriterMetrics :=
  grp.foldl (fun acc p => acc.add p.2) EMPTY_DATA_WRITER_METRICS

/-- Embeds the `table_metrics` dict comprehension (normalize.py lines
393-398): `itertools.groupby` over `job_metrics.items()` keyed by the
parsed table name, each run summed, collected into a dict with python
semantics (a repeated run key keeps the last run only). -/
def table_metrics (jm : List (ParsedLoadJobFileName × DataWriterMetrics)) :
    List (String × DataWriterMetrics) :=
  (runsBy (fun p => p.1.table_name) jm).foldl
    (fun d p => pyDictSet d p.1 (sumMetrics p.2)) []

/-! ### x-normalizer updates of `spool_files` (normalize.py lines 399-410) -/

/-- Python `d.pop(k, None)`: remove the entry with key `k` if present. -/
def pyDictPop [DecidableEq K] (d : List (K × V)) (k : K) : List (K × V) :=
  d.filter (fun p => decide (¬ p.1 = k))

/-- Python `k in d`. -/
def pyDictContains [DecidableEq K] (d : List (K × V)) (k : K) : Bool :=
  d.any (fun p => decide (p.1 = k))

/-- A table schema as `spool_files` sees it: the optional `x-normalizer`
sub-dict (its recognized keys hold booleans, spec section 3) plus the rest
of the table schema, abstracted as an opaque column list that the update
never touches. -/
structure TTableSchema where
  x_normalizer : Option (List (String × Bool))
  columns : List String
deriving DecidableEq, Repr

/-- Embeds the x-normalizer update applied to one table
(normalize.py lines 402-410):
`x_normalizer = table.setdefault("x-normalizer", {})` (the caller passes
`.getD []`), `x_normalizer.pop("evolve-columns-once", None)`, and
`if "seen-data" not in x_normalizer: x_normalizer["seen-data"] = True`. -/
def update_x_normalizer (x : List (String × Bool)) : List (String × Bool) :=
  let x1 := pyDictPop x "evolve-columns-once"
  if pyDictContains x1 "seen-data" then x1 else pyDictSet x1 "seen-data" true

/-- The update of one table inside the loop: `setdefault` materializes an empty
x-normalizer dict when absent; everything else in the table is kept. -/
def spool_update_table (t : TTableSchema) : TTableSchema :=
  { t with x_normalizer := some (update_x_normalizer (t.x_normalizer.getD [])) }

/-- Embeds `for table_name in table_metrics:` (normalize.py lines 400-410)
over the tables dict of the schema: each listed table gets its x-normalizer
updated; `schema.tables[table_name]` raises `KeyError` for a missing table
(here: `none`); tables not listed are untouched. -/
def spool_update_tables [DecidableEq K] (schema : List (K × TTableSchema)) :
    List K → Option (List (K × TTableSchema))
  | [] => some schema
  | tn :: rest =>
    match pyDictGet schema tn with
    | none => none
    | some t => spool_update_tables (pyDictSet schema tn (spool_update_table t)) rest

/-! ### Worker tasks and the parallel mapper: `Normalize.map_parallel`
(normalize.py lines 54-62, 277-285, 304-368) -/

/-- `TWorkerRV` (normalize.py lines 54-57): schema updates and file
metrics collected by one worker; also the running `summary`. -/
structure TWorkerRV (U M : Type) where
  schema_updates : List U
  file_metrics : List M
deriving DecidableEq, Repr

/-- Exceptions a finished worker future can deliver.  Modelled from the
spec: `NormalizeJobFailed` (dlt/normalize/exceptions.py, not under src/)
carries `(load_id, job_id, cause)` and the partial writer metrics
gathered during cleanup; any other exception carries no metrics. -/
inductive WorkerExc (M : Type) where
  | jobFailed (load_id job_id cause : String) (writer_metrics : List M)
  | other (cause : String)
deriving DecidableEq, Repr

/-- The 6-tuple of parameters submitted with each worker task
(normalize.py lines 308-318): `(config, normalize_storage_config,
load_storage_config, schema_dict, load_id, files)`. -/
structure WParams (C NC LC D : Type) where
  config : C
  normalize_storage_config : NC
  load_storage_config : LC
  schema_dict : D
  load_id : String
  files : List String
deriving DecidableEq, Repr

/-- The external `Schema.update_table` applied to one partial table
(dlt.common.schema, not under src/) is a parameter `upd`: it returns the
(in-place mutated) schema together with an optional
`CannotCoerceColumnException`.  `apply_partials` runs the innermost loop
of `Normalize.update_table` (normalize.py line 283-285): it stops at the
first raise, keeping the mutations applied so far. -/
def apply_partials (upd : S → P → S × Option E) : S → List P → S × Option E
  | s, [] => (s, none)
  | s, p :: ps =>
    match upd s p with
    | (s', none) => apply_partials upd s' ps
    | (s', some e) => (s', some e)

/-- The middle loop of `Normalize.update_table` (line 279): iterate the
`(table_name, table_updates)` items of one schema update dict. -/
def apply_table_updates (upd : S → P → S × Option E) :
    S → List (String × List P) → S × Option E
  | s, [] => (s, none)
  | s, (_, parts) :: rest =>
    match apply_partials upd s parts with
    | (s', none) => apply_table_updates upd s' rest
    | (s', some e) => (s', some e)

/-- Embeds `Normalize.update_table` (normalize.py lines 277-285): apply
every partial table of every schema update to the live schema, stopping
at the first coercion conflict. -/
def update_table (upd : S → P → S × Option E) :
    S → List (List (String × List P)) → S × Option E
  | s, [] => (s, none)
  | s, u :: us =>
    match apply_table_updates upd s u with
    | (s', none) => update_table upd s' us
    | (s', some e) => (s', some e)

/-- The observable outcome of handling one completed task inside the
`while` loop of `map_parallel` (normalize.py lines 330-365). -/
structure TaskStep (S C NC LC D U M : Type) where
  summary : TWorkerRV U M
  schema : S
  deleted_files : List String
  resubmitted : Option (WParams C NC LC D)
  raised : Option (WorkerExc M)
deriving DecidableEq, Repr

/-- Embeds the body of the completed-task branch of `map_parallel`
(normalize.py lines 332-365) for one task: if the future failed with
`NormalizeJobFailed` its writer metrics are drained into the summary
first (lines 334-335), then `pending.result()` re-raises the exception
(line 337); on success the schema updates of the worker are applied to the
live schema (line 340) and, if that succeeds, updates and metrics are
appended to the summary (lines 341-342); when applying raises
`CannotCoerceColumnException`, every file of the metrics of the worker is
removed (lines 354-355), a fresh snapshot of the (partially updated) live
schema is taken (line 357), and the task is resubmitted with
`params[:3] + (schema_dict,) + params[4:]` (lines 359-363). -/
def on_task_done (upd : S → P → S × Option E) (to_dict : S → D)
    (file_path : M → String) (schema : S)
    (summary : TWorkerRV (List (String × List P)) M) (params : WParams C NC LC D)
    (outcome : Except (WorkerExc M) (TWorkerRV (List (String × List P)) M)) :
    TaskStep S C NC LC D (List (String × List P)) M :=
  match outcome with
  | .error e =>
    let summary' :=
      match e with
      | .jobFailed _ _ _ wm =>
        { summary with file_metrics := summary.file_metrics ++ wm }
      | .other _ => summary
    ⟨summary', schema, [], none, some e⟩
  | .ok result =>
    match update_table upd schema result.schema_updates with
    | (schema', none) =>
      ⟨{ schema_updates := summary.schema_updates ++ result.schema_updates,
         file_metrics := summary.file_metrics ++ result.file_metrics },
        schema', [], none, none⟩
    | (schema', some _e) =>
      ⟨summary, schema', result.file_metrics.map file_path,
        some { params with schema_dict := to_dict schema' }, none⟩

/-- The final outcome of the `map_parallel` polling loop. -/
inductive MPResult (S C NC LC D U M : Type) where
  | done (summary : TWorkerRV U M) (schema : S) (deleted : List String)
  | raised (e : WorkerExc M) (summary : TWorkerRV U M) (schema : S)
      (deleted : List String)
  | fuelOut (summary : TWorkerRV U M) (schema : S)
      (tasks : List (WParams C NC LC D)) (deleted : List String)
deriving DecidableEq, Repr

/-- Embeds the `while len(tasks) > 0` loop of `map_parallel` (normalize.py
lines 327-368) under a deterministic schedule: tasks complete in queue
order and a result of a worker is the pure oracle `exec` of its parameters
(retries may differ because the snapshot differs).  A finished task is
removed (line 365); a conflict resubmission is appended (line 363); an
exception re-raised by `pending.result()` exits the loop (line 337).  The
loop has no termination guarantee if conflicts recur forever, hence the
fuel. -/
def map_parallel_loop (upd : S → P → S × Option E) (to_dict : S → D)
    (file_path : M → String)
    (exec : WParams C NC LC D →
      Except (WorkerExc M) (TWorkerRV (List (String × List P)) M)) :
    Nat → S → TWorkerRV (List (String × List P)) M →
      List (WParams C NC LC D) → List String →
      MPResult S C NC LC D (List (String × List P)) M
  | _, schema, summary, [], deleted => .done summary schema deleted
  | 0, schema, summary, tasks, deleted => .fuelOut summary schema tasks deleted
  | fuel + 1, schema, summary, params :: rest, deleted =>
    let step := on_task_done upd to_dict file_path schema summary params (exec params)
    match step.raised with
    | some e => .raised e step.summary step.schema (deleted ++ step.deleted_files)
    | none =>
      match step.resubmitted with
      | some params' =>
        map_parallel_loop upd to_dict file_path exec fuel step.schema step.summary
          (rest ++ [params']) (deleted ++ step.deleted_files)
      | none =>
        map_parallel_loop upd to_dict file_path exec fuel step.schema step.summary
          rest (deleted ++ step.deleted_files)

/-! ### Spooler: `Normalize.spool_schema_files` (normalize.py lines 446-471) -/

/-- Which mapper `spool_files` is called with (line 457: `map_parallel`,
line 469: `map_single`). -/
inductive MapKind where
  | parallel
  | single
deriving DecidableEq, Repr

/-- The coercion-conflict exception `CannotCoerceColumnException`
(dlt.common.schema.exceptions, not under src/; modelled from the spec as
an opaque payload). -/
structure CoercionExc where
  msg : String
deriving DecidableEq, Repr

/-- The storage actions `spool_schema_files` performs, in order. -/
inductive SpoolEvent where
  | delete_new_package (not_exists_ok : Bool)
  | import_extracted_package
  | spool_files_run (mapper : MapKind) (files : List String)
deriving DecidableEq, Repr

/-- Embeds `Normalize.spool_schema_files` (normalize.py lines 446-471).
`spool_outcome` abstracts one call of `self.spool_files` with the given
mapper over the given files: `none` is success, `some e` is a raised
`CannotCoerceColumnException` (any other exception is not caught by the
`except` clause and is outside this model).  The function returns the
ordered storage-event trace and either the returned load id or the
exception that escapes. -/
def spool_schema_files (spool_outcome : MapKind → List String → Option CoercionExc)
    (load_id : String) (files : List String) :
    List SpoolEvent × Except CoercionExc String :=
  let ev0 := [SpoolEvent.delete_new_package true, SpoolEvent.import_extracted_package,
    SpoolEvent.spool_files_run .parallel files]
  match spool_outcome .parallel files with
  | none => (ev0, .ok load_id)
  | some _ =>
    let ev1 := ev0 ++ [SpoolEvent.delete_new_package false,
      SpoolEvent.import_extracted_package, SpoolEvent.spool_files_run .single files]
    match spool_outcome .single files with
    | none => (ev1, .ok load_id)
    | some e2 => (ev1, .error e2)

/-! ### Driver: `Normalize.run` (normalize.py lines 473-517) -/

/-- Modelled from the spec: `TRunMetrics` (dlt.common.runners, not under
src/); spec section 4.7 reads the two run-metric fields as `done` and
`pending`, and the code constructs them positionally
(`TRunMetrics(True, 0)` on line 481, `TRunMetrics(False, n)` on
line 517). -/
structure TRunMetrics where
  done : Bool
  pending : Nat
deriving DecidableEq, Repr

/-- The extracted-package storage as `run` observes it: the packages in
`list_packages()` order, each with its `list_new_jobs` files. -/
structure NormStorageState where
  extracted_packages : List (String × List String)
deriving DecidableEq, Repr

/-- `extracted_packages.delete_package(load_id)`. -/
def delete_package (st : NormStorageState) (load_id : String) : NormStorageState :=
  ⟨st.extracted_packages.filter (fun p => decide (¬ p.1 = load_id))⟩

/-- The per-package loop of `run` (normalize.py lines 482-514) on the
success path, iterating over the initially listed packages: an empty
package is deleted and skipped (lines 505-509); otherwise
`spool_schema_files` processes it, abstracted as the storage transformer
`spool` (which also absorbs the schema-storage preference of lines
483-499, invisible to the package store). -/
def run_go (spool : String → List String → NormStorageState → NormStorageState) :
    List (String × List String) → NormStorageState → NormStorageState
  | [], st => st
  | (load_id, files) :: rest, st =>
    if files.isEmpty then run_go spool rest (delete_package st load_id)
    else run_go spool rest (spool load_id files st)

/-- Embeds `Normalize.run` (normalize.py lines 473-517): no packages give
`TRunMetrics(True, 0)` (line 481); otherwise every package is processed
and the run returns `TRunMetrics(False, len(list_packages()))`
(line 517). -/
def run (spool : String → List String → NormStorageState → NormStorageState)
    (st : NormStorageState) : NormStorageState × TRunMetrics :=
  if st.extracted_packages.isEmpty then (st, ⟨true, 0⟩)
  else
    let st' := run_go spool st.extracted_packages st
    (st', ⟨false, st'.extracted_packages.length⟩)

/-! ### Lemmas about `chunks` -/

theorem chunks_eq_nil_iff (l : List α) (n : Nat) : chunks l (n + 1) = [] ↔ l = [] := by
  cases l <;> simp [chunks]

theorem chunks_flatten_aux (n : Nat) :
    ∀ (k : Nat) (l : List α), l.length ≤ k → (chunks l (n + 1)).flatten = l := by
  intro k
  induction k with
  | zero =>
    intro l h
    have : l = [] := by cases l <;> simp_all
    subst this; simp [chunks]
  | succ k ih =>
    intro l h
    match l with
    | [] => simp [chunks]
    | x :: xs =>
      simp only [chunks, List.flatten_cons]
      rw [ih (List.drop (n + 1) (x :: xs))
        (by simp only [List.length_drop, List.length_cons] at h ⊢; omega)]
      exact List.take_append_drop _ _

theorem chunks_flatten (l : List α) (n : Nat) : (chunks l (n + 1)).flatten = l :=
  chunks_flatten_aux n l.length l le_rfl

theorem chunks_mem_aux (n : Nat) :
    ∀ (k : Nat) (l : List α), l.length ≤ k →
      ∀ c ∈ chunks l (n + 1), c ≠ [] ∧ c.length ≤ n + 1 := by
  intro k
  induction k with
  | zero =>
    intro l h c hc
    have : l = [] := by cases l <;> simp_all
    subst this; simp [chunks] at hc
  | succ k ih =>
    intro l h c hc
    match l with
    | [] => simp [chunks] at hc
    | x :: xs =>
      simp only [chunks, List.mem_cons] at hc
      rcases hc with rfl | hc
      · refine ⟨?_, by simpa using List.length_take_le (n + 1) (x :: xs)⟩
        simp [List.take_succ_cons]
      · exact ih (List.drop (n + 1) (x :: xs))
          (by simp only [List.length_drop, List.length_cons] at h ⊢; omega) c hc

theorem chunks_mem_ne_nil {l : List α} {n : Nat} {c : List α}
    (hc : c ∈ chunks l (n + 1)) : c ≠ [] :=
  (chunks_mem_aux n l.length l le_rfl c hc).1

theorem chunks_mem_length_le {l : List α} {n : Nat} {c : List α}
    (hc : c ∈ chunks l (n + 1)) : c.length ≤ n + 1 :=
  (chunks_mem_aux n l.length l le_rfl c hc).2

theorem chunks_dropLast_aux (n : Nat) :
    ∀ (k : Nat) (l : List α), l.length ≤ k →
      ∀ c ∈ (chunks l (n + 1)).dropLast, c.length = n + 1 := by
  intro k
  induction k with
  | zero =>
    intro l h c hc
    have : l = [] := by cases l <;> simp_all
    subst this; simp [chunks] at hc
  | succ k ih =>
    intro l h c hc
    match l with
    | [] => simp [chunks] at hc
    | x :: xs =>
      simp only [chunks] at hc
      rcases hre : chunks (List.drop (n + 1) (x :: xs)) (n + 1) with _ | ⟨r, rs⟩
      · rw [hre] at hc; simp at hc
      · rw [hre] at hc
        rw [List.dropLast_cons_of_ne_nil (by simp), List.mem_cons] at hc
        rcases hc with hc | hc
        · -- head chunk: the remaining chunks are nonempty, so the list is longer than n+1
          have hdrop : List.drop (n + 1) (x :: xs) ≠ [] := by
            intro hd
            rw [hd] at hre
            simp [chunks] at hre
          have hlen : n + 1 < (x :: xs).length := by
            by_contra hcon
            exact hdrop (List.drop_eq_nil_of_le (by omega))
          subst hc
          simp only [List.length_cons] at hlen
          simp only [List.length_take, List.length_cons]
          omega
        · rw [← hre] at hc
          exact ih (List.drop (n + 1) (x :: xs))
            (by simp only [List.length_drop, List.length_cons] at h ⊢; omega) c hc

theorem chunks_dropLast_length {l : List α} {n : Nat} {c : List α}
    (hc : c ∈ (chunks l (n + 1)).dropLast) : c.length = n + 1 :=
  chunks_dropLast_aux n l.length l le_rfl c hc

theorem chunks_last_structure (l : List α) (n : Nat) (hl : l ≠ []) :
    ∃ t, (chunks l (n + 1)).getLast? = some t ∧ 1 ≤ t.length ∧ t.length ≤ n + 1 ∧
      l.length = ((chunks l (n + 1)).length - 1) * (n + 1) + t.length := by
  have hC : chunks l (n + 1) ≠ [] := by
    rw [Ne, chunks_eq_nil_iff]; exact hl
  set C := chunks l (n + 1) with hCdef
  refine ⟨C.getLast hC, List.getLast?_eq_getLast C hC, ?_, ?_, ?_⟩
  · have := chunks_mem_ne_nil (l := l) (n := n) (C.getLast_mem hC)
    cases hg : C.getLast hC with
    | nil => exact absurd hg this
    | cons a as => simp
  · exact chunks_mem_length_le (l := l) (n := n) (C.getLast_mem hC)
  · have hflat : C.flatten = l := chunks_flatten l n
    have hsum : l.length = (C.map List.length).sum := by
      rw [← hflat, List.length_flatten]
    have hdecomp : C = C.dropLast ++ [C.getLast hC] := (List.dropLast_concat_getLast hC).symm
    have hrep : C.dropLast.map List.length = List.replicate (C.length - 1) (n + 1) := by
      rw [List.eq_replicate_iff]
      constructor
      · simp [List.length_dropLast]
      · intro b hb
        simp only [List.mem_map] at hb
        obtain ⟨c, hc, rfl⟩ := hb
        exact chunks_dropLast_length hc
    calc l.length = (C.map List.length).sum := hsum
      _ = ((C.dropLast ++ [C.getLast hC]).map List.length).sum := by rw [← hdecomp]
      _ = (C.dropLast.map List.length).sum + (C.getLast hC).length := by
          simp [List.map_append]
      _ = (C.length - 1) * (n + 1) + (C.getLast hC).length := by
          rw [hrep, List.sum_replicate, smul_eq_mul]

/-! ### Lemmas about the redistribution loop -/

theorem pyAppendAt_neg_eq (cf : List (List α)) (k : Nat) (f : α)
    (h1 : 1 ≤ k) (h2 : k ≤ cf.length) :
    pyAppendAt cf (-(k : Int)) f =
      some (cf.set (cf.length - k) ((cf.getD (cf.length - k) []) ++ [f])) := by
  have hneg : (-(k : Int) < 0) := by omega
  have htoNat : (-(k : Int) + cf.length).toNat = cf.length - k := by omega
  simp only [pyAppendAt, pyResolveIndex, hneg, if_true]
  rw [dif_pos (by constructor <;> omega)]
  simp only [htoNat]

theorem flatten_set_append_perm (cf : List (List α)) (j : Nat) (f : α)
    (h : j < cf.length) :
    (cf.set j ((cf.getD j []) ++ [f])).flatten.Perm (cf.flatten ++ [f]) := by
  induction cf generalizing j with
  | nil => simp at h
  | cons c cs ih =>
    cases j with
    | zero =>
      simp only [List.getD_cons_zero, List.set_cons_zero, List.flatten_cons]
      rw [List.append_assoc c cs.flatten [f], List.append_assoc c [f] cs.flatten]
      exact List.Perm.append_left c (@List.perm_append_comm _ [f] cs.flatten)
    | succ j =>
      simp only [List.getD_cons_succ, List.set_cons_succ, List.flatten_cons]
      have hih := ih j (by simpa using Nat.lt_of_succ_lt_succ h)
      rw [List.append_assoc c cs.flatten [f]]
      exact List.Perm.append_left c hih

theorem mem_set_append_ne_nil {cf : List (List α)} {j : Nat} {f : α}
    (hne : ∀ g ∈ cf, g ≠ []) :
    ∀ g ∈ cf.set j ((cf.getD j []) ++ [f]), g ≠ [] := by
  intro g hg
  rcases List.mem_or_eq_of_mem_set hg with hmem | rfl
  · exact hne g hmem
  · simp

theorem distributeFiles_spec :
    ∀ (files : List α) (cf : List (List α)) (idx l_idx rem : Nat),
      1 ≤ rem →
      l_idx + idx + files.length + rem ≤ cf.length + 1 →
      (∀ g ∈ cf, g ≠ []) →
      ∃ cf', distributeFiles cf files idx l_idx rem = some cf' ∧
        cf'.length = cf.length ∧
        cf'.flatten.Perm (cf.flatten ++ files) ∧
        (∀ g ∈ cf', g ≠ []) ∧
        cf'.drop (cf.length + 1 - rem) = cf.drop (cf.length + 1 - rem) := by
  intro files
  induction files with
  | nil =>
    intro cf idx l_idx rem hrem hbound hne
    exact ⟨cf, rfl, rfl, by simp, hne, rfl⟩
  | cons f rest ih =>
    intro cf idx l_idx rem hrem hbound hne
    have hk1 : 1 ≤ l_idx + idx + rem := by omega
    have hk2 : l_idx + idx + rem ≤ cf.length := by
      simp only [List.length_cons] at hbound; omega
    have happ := pyAppendAt_neg_eq cf (l_idx + idx + rem) f hk1 hk2
    set j := cf.length - (l_idx + idx + rem) with hj
    set cf2 := cf.set j ((cf.getD j []) ++ [f]) with hcf2
    have hlen2 : cf2.length = cf.length := by simp [hcf2]
    obtain ⟨cf', hrun, hlen, hperm, hne', hframe⟩ :=
      ih cf2 (idx + 1) l_idx rem hrem
        (by simp only [List.length_cons] at hbound; omega)
        (mem_set_append_ne_nil hne)
    refine ⟨cf', ?_, by omega, ?_, hne', ?_⟩
    · simp only [distributeFiles]
      have : -(l_idx + idx + rem : Int) = -((l_idx + idx + rem : Nat) : Int) := by
        push_cast; ring
      rw [this, happ]
      exact hrun
    · have p1 : cf2.flatten.Perm (cf.flatten ++ [f]) :=
        flatten_set_append_perm cf j f (by omega)
      have p2 : (cf2.flatten ++ rest).Perm ((cf.flatten ++ [f]) ++ rest) :=
        p1.append_right rest
      have heq : (cf.flatten ++ [f]) ++ rest = cf.flatten ++ (f :: rest) := by simp
      rw [heq] at p2
      exact hperm.trans p2
    · have hdrop2 : cf2.drop (cf.length + 1 - rem) = cf.drop (cf.length + 1 - rem) := by
        rw [hcf2]
        exact List.drop_set_of_lt _ _ (by omega)
      rw [hlen2] at hframe
      rw [hframe, hdrop2]

theorem redistribute_spec :
    ∀ (rem l_idx : Nat) (cf : List (List α)),
      (∀ g ∈ cf, g ≠ []) →
      rem ≤ cf.length →
      chain (cf.length - rem) l_idx ((cf.drop (cf.length - rem)).reverse) →
      ∃ out, redistribute rem l_idx cf = some out ∧
        out.length = cf.length - rem ∧
        out.flatten.Perm cf.flatten ∧
        (∀ g ∈ out, g ≠ []) := by
  intro rem
  induction rem with
  | zero =>
    intro l_idx cf hne _ _
    exact ⟨cf, rfl, by omega, List.Perm.refl _, hne⟩
  | succ rem ih =>
    intro l_idx cf hne hlen hchain
    have hcf : cf ≠ [] := by
      intro h; rw [h] at hlen; simp at hlen
    set last := cf.getLast hcf with hlast
    have hget : cf.getLast? = some last := List.getLast?_eq_getLast cf hcf
    have hlastmem : last ∈ cf := cf.getLast_mem hcf
    have hlastne : last ≠ [] := hne last hlastmem
    set n := cf.length with hn
    set N := n - (rem + 1) with hN
    have hdecomp : cf.dropLast ++ [last] = cf := List.dropLast_concat_getLast hcf
    have hdllen : cf.dropLast.length = n - 1 := by simp [hn]
    have hdrop : cf.drop N = cf.dropLast.drop N ++ [last] := by
      conv_lhs => rw [← hdecomp]
      exact List.drop_append_of_le_length (by omega)
    have hrev : (cf.drop N).reverse = last :: (cf.dropLast.drop N).reverse := by
      rw [hdrop]; simp
    rw [hrev] at hchain
    obtain ⟨hhead, htail⟩ := hchain
    -- run the inner for loop
    obtain ⟨cf', hrun, hlen', hperm, hne', hframe⟩ :=
      distributeFiles_spec last.reverse cf.dropLast 0 l_idx (rem + 1)
        (by omega)
        (by simp only [List.length_reverse, hdllen]; omega)
        (fun g hg => hne g (List.dropLast_sublist cf |>.mem hg))
    have hframe' : cf'.drop N = cf.dropLast.drop N := by
      have : cf.dropLast.length + 1 - (rem + 1) = N := by omega
      rw [this] at hframe
      exact hframe
    -- recursive call
    obtain ⟨out, hout, holen, hoperm, hone⟩ :=
      ih last.length cf' hne'
        (by omega)
        (by
          have h1 : cf'.length - rem = N := by omega
          rw [h1, hframe']
          exact htail)
    refine ⟨out, ?_, by omega, ?_, hone⟩
    · simp only [redistribute, hget]
      rw [if_neg (by simp [hlastne])]
      rw [hrun]
      exact hout
    · have p1 : (cf.dropLast.flatten ++ last.reverse).Perm (cf.dropLast.flatten ++ last) :=
        List.Perm.append_left _ (List.reverse_perm last)
      have heq : cf.dropLast.flatten ++ last = cf.flatten := by
        conv_rhs => rw [← hdecomp]
        simp
      rw [heq] at p1
      exact hoperm.trans (hperm.trans p1)

theorem chain_nil_true (N prev : Nat) : chain N prev ([] : List (List α)) := by
  simp [chain]

theorem chain_const (N q : Nat) :
    ∀ (gs : List (List α)), (∀ g ∈ gs, g.length = q) → q + q ≤ N → chain N q gs := by
  intro gs
  induction gs with
  | nil => intro _ _; exact chain_nil_true N q
  | cons g gs ih =>
    intro h hq
    have hg : g.length = q := h g (by simp)
    refine ⟨by omega, ?_⟩
    rw [hg]
    exact ih (fun g' hg' => h g' (by simp [hg'])) hq

theorem grouping_core (s : List String) (N : Nat) (hN : 1 ≤ N) :
    ∃ gs, redistribute ((chunks s (max (s.length / N) 1)).length - N) 0
        (chunks s (max (s.length / N) 1)) = some gs ∧
      gs.flatten.Perm s ∧ gs.length ≤ N ∧ (∀ g ∈ gs, g ≠ []) := by
  obtain ⟨m, hm⟩ : ∃ m, max (s.length / N) 1 = m + 1 := by
    refine ⟨max (s.length / N) 1 - 1, ?_⟩
    have := le_max_right (s.length / N) 1
    omega
  rw [hm]
  by_cases hs : s = []
  · subst hs
    refine ⟨[], ?_, by simp, by simp, by simp⟩
    have h0 : chunks ([] : List String) (m + 1) = [] := (chunks_eq_nil_iff [] m).mpr rfl
    rw [h0]
    simp [redistribute]
  · -- the non-empty case: gather all chunk facts, then reason abstractly
    obtain ⟨t, hgetlast, ht1, ht2, hLid⟩ := chunks_last_structure s m hs
    have hflat : (chunks s (m + 1)).flatten = s := chunks_flatten s m
    have hne : ∀ g ∈ chunks s (m + 1), g ≠ [] := fun g hg => chunks_mem_ne_nil hg
    have hdlq : ∀ c ∈ (chunks s (m + 1)).dropLast, c.length = m + 1 :=
      fun c hc => chunks_dropLast_length hc
    generalize hgen : chunks s (m + 1) = cf at hgetlast hLid hflat hne hdlq ⊢
    have hdm : N * (s.length / N) + s.length % N = s.length := Nat.div_add_mod s.length N
    have hmod : s.length % N < N := Nat.mod_lt _ (by omega)
    generalize hqg : m + 1 = q at hm ht2 hLid hdlq ⊢
    have hq1 : 1 ≤ q := by omega
    have hchain : chain (cf.length - (cf.length - N)) 0
        ((cf.drop (cf.length - (cf.length - N))).reverse) := by
      by_cases hCN : cf.length ≤ N
      · have hP : cf.length - (cf.length - N) = cf.length := by omega
        rw [hP, List.drop_length]
        exact chain_nil_true _ _
      · push_neg at hCN
        have hP : cf.length - (cf.length - N) = N := by omega
        rw [hP]
        have hcfne : cf ≠ [] := by
          intro h
          rw [h] at hCN
          simp at hCN
        -- q is the true quotient here: a quotient of 0 would force too few chunks
        have hqdiv : s.length / N = q := by
          by_cases hdiv0 : s.length / N = 0
          · exfalso
            rw [hdiv0] at hm
            simp at hm
            have hq1' : q = 1 := by omega
            have htlen : t.length = 1 := by omega
            rw [hq1', htlen, Nat.mul_one] at hLid
            have hLlt : s.length < N := (Nat.div_eq_zero_iff (by omega)).mp hdiv0
            omega
          · have hge : 1 ≤ s.length / N := Nat.one_le_iff_ne_zero.mpr hdiv0
            rw [max_eq_left hge] at hm
            exact hm
        rw [hqdiv] at hdm
        -- decompose the chunk list around its last element
        have hlast_eq : cf.getLast hcfne = t := by
          have h := List.getLast?_eq_getLast cf hcfne
          rw [hgetlast] at h
          exact (Option.some.inj h).symm
        have hdecomp : cf.dropLast ++ [t] = cf := by
          rw [← hlast_eq]
          exact List.dropLast_concat_getLast hcfne
        have hdrop : cf.drop N = cf.dropLast.drop N ++ [t] := by
          conv_lhs => rw [← hdecomp]
          exact List.drop_append_of_le_length (by simp [List.length_dropLast]; omega)
        have hrev : (cf.drop N).reverse = t :: (cf.dropLast.drop N).reverse := by
          rw [hdrop]
          simp
        have hrestlen : ((cf.dropLast.drop N).reverse).length = cf.length - 1 - N := by
          simp
        have hrestq : ∀ g ∈ (cf.dropLast.drop N).reverse, g.length = q := by
          intro g hg
          rw [List.mem_reverse] at hg
          exact hdlq g (List.mem_of_mem_drop hg)
        rw [hrev]
        generalize hR : (cf.dropLast.drop N).reverse = R at hrestlen hrestq
        have hm1 : N * q ≤ (cf.length - 1) * q := Nat.mul_le_mul_right q (by omega)
        refine ⟨by omega, ?_⟩
        cases R with
        | nil => exact chain_nil_true _ _
        | cons g gs =>
          have hg : g.length = q := hrestq g (by simp)
          have hC2 : N + 2 ≤ cf.length := by
            simp only [List.length_cons] at hrestlen
            omega
          have hm2 : (N + 1) * q ≤ (cf.length - 1) * q := Nat.mul_le_mul_right q (by omega)
          have e1 : (N + 1) * q = N * q + q := by ring
          refine ⟨by rw [hg]; omega, ?_⟩
          rw [hg]
          cases gs with
          | nil => exact chain_nil_true _ _
          | cons g' gs' =>
            have hC3 : N + 3 ≤ cf.length := by
              simp only [List.length_cons] at hrestlen
              omega
            have hm3 : (N + 2) * q ≤ (cf.length - 1) * q := Nat.mul_le_mul_right q (by omega)
            have e2 : (N + 2) * q = N * q + 2 * q := by ring
            refine chain_const N q _ ?_ (by omega)
            intro g'' hg''
            exact hrestq g'' (by simp [hg''])
    obtain ⟨out, hred, holen, hoperm, hone⟩ :=
      redistribute_spec (cf.length - N) 0 cf hne (by omega) hchain
    refine ⟨out, hred, ?_, by omega, hone⟩
    rw [hflat] at hoperm
    exact hoperm

theorem group_worker_files_spec (files : List String) (N : Nat) (hN : 1 ≤ N) :
    ∃ gs, group_worker_files files N = some gs ∧
      gs.flatten.Perm files ∧ gs.length ≤ N ∧ (∀ g ∈ gs, g ≠ []) := by
  have hN0 : N ≠ 0 := by omega
  obtain ⟨gs, hred, hperm, hlen, hne⟩ :=
    grouping_core (files.mergeSort (fun a b => decide (a ≤ b))) N hN
  refine ⟨gs, ?_, ?_, by simpa using hlen, hne⟩
  · simp only [group_worker_files, if_neg hN0]
    simpa using hred
  · exact hperm.trans (List.mergeSort_perm files _)

/-! ### Claims C1 and C5 -/

/-- C1: for every list of file names and every group count `N >= 1`,
`group_worker_files(files, N)` succeeds and the concatenation of the
returned groups is a permutation of the sorted input (equivalently of the
input): every input file appears in the output exactly as often as in the
input, so nothing is dropped or duplicated. -/
theorem C1_group_worker_files_permutation (files : List String) (N : Nat)
    (hN : 1 ≤ N) :
    ∃ gs, group_worker_files files N = some gs ∧
      gs.flatten.Perm (files.mergeSort (fun a b => decide (a ≤ b))) ∧
      gs.flatten.Perm files ∧
      (∀ f, (gs.map (List.count f)).sum = files.count f) := by
  obtain ⟨gs, h1, h2, h3, _⟩ := group_worker_files_spec files N hN
  refine ⟨gs, h1, ?_, h2, ?_⟩
  · exact h2.trans (List.mergeSort_perm files _).symm
  · intro f
    rw [← List.count_flatten]
    exact h2.count_eq f

/-- C1 witness: a concrete instance of the permutation property. -/
theorem C1_group_worker_files_permutation_witness :
    1 ≤ 2 ∧
      ∃ gs, group_worker_files ["b.1.x", "a.1.x", "c.1.x"] 2 = some gs ∧
        gs.flatten.Perm
          (["b.1.x", "a.1.x", "c.1.x"].mergeSort (fun a b => decide (a ≤ b))) ∧
        gs.flatten.Perm ["b.1.x", "a.1.x", "c.1.x"] ∧
        (∀ f, (gs.map (List.count f)).sum = ["b.1.x", "a.1.x", "c.1.x"].count f) :=
  ⟨by decide, C1_group_worker_files_permutation ["b.1.x", "a.1.x", "c.1.x"] 2 (by decide)⟩

/-- C5: for every `files` and `N >= 1`, `group_worker_files(files, N)`
returns at most `max(N, 1)` groups, and when `files` is non-empty every
returned group is non-empty. -/
theorem C5_group_worker_files_bounds (files : List String) (N : Nat)
    (hN : 1 ≤ N) :
    ∃ gs, group_worker_files files N = some gs ∧
      gs.length ≤ max N 1 ∧
      (files ≠ [] → ∀ g ∈ gs, g ≠ []) := by
  obtain ⟨gs, h1, _, h3, h4⟩ := group_worker_files_spec files N hN
  exact ⟨gs, h1, le_trans h3 (le_max_left N 1), fun _ => h4⟩

/-- C5 witness: a concrete instance of the bound property. -/
theorem C5_group_worker_files_bounds_witness :
    1 ≤ 3 ∧
      ∃ gs, group_worker_files ["b.1.x", "a.1.x", "c.1.x", "a.2.x", "d.1.x"] 3 = some gs ∧
        gs.length ≤ max 3 1 ∧
        (["b.1.x", "a.1.x", "c.1.x", "a.2.x", "d.1.x"] ≠ [] → ∀ g ∈ gs, g ≠ []) :=
  ⟨by decide,
    C5_group_worker_files_bounds ["b.1.x", "a.1.x", "c.1.x", "a.2.x", "d.1.x"] 3 (by decide)⟩

/-! ### Lemmas about python dicts -/

theorem pyDictGet_nil [DecidableEq K] (k : K) :
    pyDictGet ([] : List (K × V)) k = none := rfl

theorem pyDictGet_cons [DecidableEq K] (p : K × V) (ps : List (K × V)) (k : K) :
    pyDictGet (p :: ps) k = if p.1 = k then some p.2 else pyDictGet ps k := by
  by_cases h : p.1 = k
  · rw [pyDictGet, List.find?_cons_of_pos _ (by simpa using h), if_pos h]
    rfl
  · rw [pyDictGet, List.find?_cons_of_neg _ (by simpa using h), if_neg h]
    rfl

theorem pyDictGet_pyDictSet [DecidableEq K] (d : List (K × V)) (k k' : K) (v : V) :
    pyDictGet (pyDictSet d k v) k' = if k' = k then some v else pyDictGet d k' := by
  induction d with
  | nil =>
    rw [show pyDictSet ([] : List (K × V)) k v = [(k, v)] from rfl, pyDictGet_cons]
    by_cases hk : k' = k
    · subst hk; simp
    · rw [if_neg (fun h => hk h.symm), if_neg hk]
  | cons q qs ih =>
    by_cases hq : q.1 = k
    · rw [pyDictSet, if_pos hq, pyDictGet_cons, pyDictGet_cons]
      by_cases hk : k' = k
      · subst hk; simp
      · rw [if_neg (fun h => hk h.symm), if_neg hk,
          if_neg (show ¬q.1 = k' by rw [hq]; exact fun h => hk h.symm)]
    · rw [pyDictSet, if_neg hq, pyDictGet_cons, pyDictGet_cons, ih]
      by_cases hqk : q.1 = k'
      · have hk : ¬ k' = k := by
          intro h
          exact hq (hqk.trans h)
        rw [if_pos hqk, if_neg hk, if_pos hqk]
      · by_cases hk : k' = k
        · rw [if_neg hqk, if_pos hk, if_pos hk]
        · rw [if_neg hqk, if_neg hk, if_neg hk, if_neg hqk]

theorem mem_pyDictSet [DecidableEq K] {d : List (K × V)} {k : K} {v : V} :
    ∀ p ∈ pyDictSet d k v, p = (k, v) ∨ p ∈ d := by
  induction d with
  | nil =>
    intro p hp
    simp [pyDictSet] at hp
    left
    exact hp
  | cons q qs ih =>
    intro p hp
    by_cases hq : q.1 = k
    · rw [pyDictSet, if_pos hq] at hp
      rcases List.mem_cons.mp hp with hp | hp
      · left; exact hp
      · right; simp [hp]
    · rw [pyDictSet, if_neg hq] at hp
      rcases List.mem_cons.mp hp with hp | hp
      · right; simp [hp]
      · rcases ih p hp with h | h
        · left; exact h
        · right; simp [h]

theorem keys_pyDictSet [DecidableEq K] (d : List (K × V)) (k : K) (v : V) :
    ∀ k', k' ∈ (pyDictSet d k v).map Prod.fst → k' = k ∨ k' ∈ d.map Prod.fst := by
  intro k' hk'
  rw [List.mem_map] at hk'
  obtain ⟨p, hp, rfl⟩ := hk'
  rcases mem_pyDictSet p hp with h | h
  · left; rw [h]
  · right; exact List.mem_map_of_mem Prod.fst h

theorem keys_nodup_pyDictSet [DecidableEq K] (d : List (K × V)) (k : K) (v : V)
    (h : (d.map Prod.fst).Nodup) : ((pyDictSet d k v).map Prod.fst).Nodup := by
  induction d with
  | nil => simp [pyDictSet]
  | cons q qs ih =>
    by_cases hq : q.1 = k
    · rw [pyDictSet, if_pos hq]
      simp only [List.map_cons, List.nodup_cons] at h ⊢
      rw [← hq]
      exact h
    · rw [pyDictSet, if_neg hq]
      simp only [List.map_cons, List.nodup_cons] at h ⊢
      refine ⟨?_, ih h.2⟩
      intro hmem
      rcases keys_pyDictSet qs k v q.1 hmem with h1 | h1
      · exact hq h1
      · exact h.1 h1

/-! ### Lemmas about `job_metrics`: last write wins, keys unique -/

theorem jobMetricsFrom_get :
    ∀ (ms : List DataWriterMetrics) (d jm : List (ParsedLoadJobFileName × DataWriterMetrics)),
      jobMetricsFrom d ms = some jm → ∀ k,
        pyDictGet jm k =
          ((ms.filter (fun m =>
              decide (ParsedLoadJobFileName.parse m.file_path = some k))).getLast?).elim
            (pyDictGet d k) some := by
  intro ms
  induction ms with
  | nil =>
    intro d jm h k
    rw [jobMetricsFrom] at h
    cases h
    simp [Option.elim]
  | cons m ms ih =>
    intro d jm h k
    rw [jobMetricsFrom] at h
    cases hp : ParsedLoadJobFileName.parse m.file_path with
    | none => rw [hp] at h; cases h
    | some km =>
      rw [hp] at h
      have hih := ih (pyDictSet d km m) jm h k
      by_cases hk : km = k
      · subst hk
        have hsel : decide (ParsedLoadJobFileName.parse m.file_path = some km) = true := by
          simp [hp]
        rw [List.filter_cons, if_pos hsel]
        cases hL : (ms.filter (fun m' =>
            decide (ParsedLoadJobFileName.parse m'.file_path = some km))).getLast? with
        | none =>
          rw [List.getLast?_eq_none_iff] at hL
          rw [hL] at hih ⊢
          simp only [List.getLast?_nil, Option.elim_none] at hih
          simp only [List.getLast?_singleton, Option.elim_some]
          rw [hih, pyDictGet_pyDictSet, if_pos rfl]
        | some x =>
          cases hfil : ms.filter (fun m' =>
              decide (ParsedLoadJobFileName.parse m'.file_path = some km)) with
          | nil =>
            rw [hfil] at hL
            simp at hL
          | cons y ys =>
            rw [hfil] at hL hih
            rw [List.getLast?_cons_cons, hL]
            rw [hL] at hih
            simp only [Option.elim_some] at hih ⊢
            exact hih
      · have hsel : decide (ParsedLoadJobFileName.parse m.file_path = some k) = false := by
          simp [hp, hk]
        rw [List.filter_cons, if_neg (by simp [hsel])]
        rw [hih]
        rw [pyDictGet_pyDictSet, if_neg (fun h' => hk h'.symm)]

theorem jobMetricsFrom_keys_nodup :
    ∀ (ms : List DataWriterMetrics) (d jm : List (ParsedLoadJobFileName × DataWriterMetrics)),
      (d.map Prod.fst).Nodup → jobMetricsFrom d ms = some jm →
      (jm.map Prod.fst).Nodup := by
  intro ms
  induction ms with
  | nil =>
    intro d jm hd h
    rw [jobMetricsFrom] at h
    cases h
    exact hd
  | cons m ms ih =>
    intro d jm hd h
    rw [jobMetricsFrom] at h
    cases hp : ParsedLoadJobFileName.parse m.file_path with
    | none => rw [hp] at h; cases h
    | some km =>
      rw [hp] at h
      exact ih (pyDictSet d km m) jm (keys_nodup_pyDictSet d km m hd) h

/-! ### Lemmas about `runsBy` (`itertools.groupby`) -/

theorem runsBy_cons_nil (key : α → β) [DecidableEq β] (a : α) (rest : List α)
    (hr : runsBy key rest = []) : runsBy key (a :: rest) = [(key a, [a])] := by
  rw [runsBy, hr]

theorem runsBy_cons_cons (key : α → β) [DecidableEq β] (a : α) (rest : List α)
    (k : β) (grp : List α) (more : List (β × List α))
    (hr : runsBy key rest = (k, grp) :: more) :
    runsBy key (a :: rest) =
      if key a = k then (k, a :: grp) :: more
      else (key a, [a]) :: (k, grp) :: more := by
  rw [runsBy, hr]

theorem runsBy_flatten (key : α → β) [DecidableEq β] :
    ∀ l : List α, ((runsBy key l).map Prod.snd).flatten = l := by
  intro l
  induction l with
  | nil => rfl
  | cons a rest ih =>
    cases hr : runsBy key rest with
    | nil =>
      rw [hr] at ih
      simp at ih
      rw [runsBy_cons_nil key a rest hr]
      simp [ih]
    | cons p more =>
      rw [hr] at ih
      obtain ⟨k, grp⟩ := p
      rw [runsBy_cons_cons key a rest k grp more hr]
      by_cases hk : key a = k
      · rw [if_pos hk]
        simpa using ih
      · rw [if_neg hk]
        simpa using ih

theorem runsBy_run_key (key : α → β) [DecidableEq β] :
    ∀ l : List α, ∀ p ∈ runsBy key l, ∀ x ∈ p.2, key x = p.1 := by
  intro l
  induction l with
  | nil => intro p hp; simp [runsBy] at hp
  | cons a rest ih =>
    intro p hp x hx
    cases hr : runsBy key rest with
    | nil =>
      rw [runsBy_cons_nil key a rest hr] at hp
      simp at hp
      subst hp
      simp at hx
      subst hx
      rfl
    | cons q more =>
      obtain ⟨k, grp⟩ := q
      rw [runsBy_cons_cons key a rest k grp more hr] at hp
      by_cases hk : key a = k
      · rw [if_pos hk] at hp
        rcases List.mem_cons.mp hp with hp | hp
        · subst hp
          rcases List.mem_cons.mp hx with hx | hx
          · subst hx; exact hk
          · exact ih (k, grp) (by rw [hr]; simp) x hx
        · exact ih p (by rw [hr]; simp [hp]) x hx
      · rw [if_neg hk] at hp
        rcases List.mem_cons.mp hp with hp | hp
        · subst hp
          simp at hx
          subst hx
          rfl
        · exact ih p (by rw [hr]; exact hp) x hx

theorem runsBy_run_sublist (key : α → β) [DecidableEq β] :
    ∀ l : List α, ∀ p ∈ runsBy key l, p.2.Sublist l := by
  intro l
  induction l with
  | nil => intro p hp; simp [runsBy] at hp
  | cons a rest ih =>
    intro p hp
    cases hr : runsBy key rest with
    | nil =>
      rw [runsBy_cons_nil key a rest hr] at hp
      simp at hp
      subst hp
      simp
    | cons q more =>
      obtain ⟨k, grp⟩ := q
      rw [runsBy_cons_cons key a rest k grp more hr] at hp
      by_cases hk : key a = k
      · rw [if_pos hk] at hp
        rcases List.mem_cons.mp hp with hp | hp
        · subst hp
          exact (ih (k, grp) (by rw [hr]; simp)).cons₂ a
        · exact (ih p (by rw [hr]; simp [hp])).cons a
      · rw [if_neg hk] at hp
        rcases List.mem_cons.mp hp with hp | hp
        · subst hp
          simpa using List.Sublist.cons₂ a (List.nil_sublist rest)
        · exact (ih p (by rw [hr]; exact hp)).cons a

theorem runsBy_key_of_mem (key : α → β) [DecidableEq β] :
    ∀ l : List α, ∀ x ∈ l, key x ∈ (runsBy key l).map Prod.fst := by
  intro l
  induction l with
  | nil => intro x hx; simp at hx
  | cons a rest ih =>
    intro x hx
    cases hr : runsBy key rest with
    | nil =>
      rw [runsBy_cons_nil key a rest hr]
      rcases List.mem_cons.mp hx with hx | hx
      · subst hx; simp
      · have := ih x hx
        rw [hr] at this
        simp at this
    | cons q more =>
      rw [hr] at ih
      obtain ⟨k, grp⟩ := q
      rw [runsBy_cons_cons key a rest k grp more hr]
      by_cases hk : key a = k
      · rw [if_pos hk]
        rcases List.mem_cons.mp hx with hx | hx
        · subst hx; simp [hk]
        · exact ih x hx
      · rw [if_neg hk]
        rcases List.mem_cons.mp hx with hx | hx
        · subst hx; simp
        · simpa using Or.inr (by simpa using ih x hx)

theorem runsBy_filter (key : α → β) [DecidableEq β] :
    ∀ l : List α, ((runsBy key l).map Prod.fst).Nodup →
      ∀ p ∈ runsBy key l, l.filter (fun x => decide (key x = p.1)) = p.2 := by
  intro l
  induction l with
  | nil => intro _ p hp; simp [runsBy] at hp
  | cons a rest ih =>
    intro hnd p hp
    cases hr : runsBy key rest with
    | nil =>
      rw [runsBy_cons_nil key a rest hr] at hp
      simp at hp
      subst hp
      have hrest : rest = [] := by
        have := runsBy_flatten key rest
        rw [hr] at this
        simpa using this.symm
      subst hrest
      simp
    | cons q more =>
      rw [hr] at ih
      obtain ⟨k, grp⟩ := q
      rw [runsBy_cons_cons key a rest k grp more hr] at hnd hp
      by_cases hk : key a = k
      · rw [if_pos hk] at hnd hp
        simp only [List.map_cons, List.nodup_cons] at hnd
        have hnd' : ((((k, grp) :: more).map Prod.fst)).Nodup := by
          simp only [List.map_cons, List.nodup_cons]
          exact hnd
        rcases List.mem_cons.mp hp with hp | hp
        · -- p is the merged head run (k, a :: grp)
          subst hp
          rw [List.filter_cons, if_pos (by simpa using hk)]
          congr 1
          exact ih hnd' (k, grp) (by simp)
        · -- p is a later run; neither `a` nor the head run carries p.1
          have hpk : p.1 ∈ more.map Prod.fst := List.mem_map_of_mem Prod.fst hp
          have hka : ¬ key a = p.1 := by
            rw [hk]
            intro hcon
            rw [hcon] at hnd
            exact hnd.1 hpk
          rw [List.filter_cons, if_neg (by simpa using hka)]
          exact ih hnd' p (by simp [hp])
      · rw [if_neg hk] at hnd hp
        simp only [List.map_cons, List.nodup_cons] at hnd
        have hnd' : ((((k, grp) :: more).map Prod.fst)).Nodup := by
          simp only [List.map_cons, List.nodup_cons]
          exact hnd.2
        rcases List.mem_cons.mp hp with hp | hp
        · -- p is the fresh singleton run (key a, [a])
          subst hp
          rw [List.filter_cons, if_pos (by simp)]
          have hnone : rest.filter (fun x => decide (key x = key a)) = [] := by
            rw [List.filter_eq_nil_iff]
            intro x hx
            simp only [decide_eq_true_eq]
            intro hcon
            have := runsBy_key_of_mem key rest x hx
            rw [hr, hcon] at this
            exact hnd.1 this
          rw [hnone]
        · have hka : ¬ key a = p.1 := by
            intro hcon
            have hpk : p.1 ∈ ((k, grp) :: more).map Prod.fst :=
              List.mem_map_of_mem Prod.fst hp
            rw [hcon] at hnd
            exact hnd.1 hpk
          rw [List.filter_cons, if_neg (by simpa using hka)]
          exact ih hnd' p hp

/-! ### Lemmas about the `table_metrics` fold -/

theorem mem_foldl_pyDictSet [DecidableEq K] :
    ∀ (pairs : List (K × V)) (d : List (K × V)) (p : K × V),
      p ∈ pairs.foldl (fun d q => pyDictSet d q.1 q.2) d → p ∈ d ∨ p ∈ pairs := by
  intro pairs
  induction pairs with
  | nil => intro d p hp; left; exact hp
  | cons q rest ih =>
    intro d p hp
    rcases ih (pyDictSet d q.1 q.2) p hp with h | h
    · rcases mem_pyDictSet p h with h1 | h1
      · right
        simp [h1]
      · left
        exact h1
    · right
      simp [h]

theorem pyDictGet_foldl_pyDictSet [DecidableEq K] :
    ∀ (pairs : List (K × V)) (d : List (K × V)) (k : K),
      pyDictGet (pairs.foldl (fun d q => pyDictSet d q.1 q.2) d) k =
        ((pairs.filter (fun q => decide (q.1 = k))).getLast?).elim
          (pyDictGet d k) (fun q => some q.2) := by
  intro pairs
  induction pairs with
  | nil =>
    intro d k
    simp [Option.elim]
  | cons q rest ih =>
    intro d k
    have hih := ih (pyDictSet d q.1 q.2) k
    by_cases hq : q.1 = k
    · rw [List.filter_cons, if_pos (by simpa using hq)]
      cases hL : (rest.filter (fun q' => decide (q'.1 = k))).getLast? with
      | none =>
        rw [List.getLast?_eq_none_iff] at hL
        rw [hL] at hih ⊢
        simp only [List.getLast?_nil, Option.elim_none] at hih
        simp only [List.getLast?_singleton, Option.elim_some]
        rw [List.foldl_cons, hih, pyDictGet_pyDictSet, if_pos hq.symm]
      | some x =>
        cases hfil : rest.filter (fun q' => decide (q'.1 = k)) with
        | nil =>
          rw [hfil] at hL
          simp at hL
        | cons y ys =>
          rw [hfil] at hL hih
          rw [List.getLast?_cons_cons, hL]
          rw [hL] at hih
          simp only [Option.elim_some] at hih ⊢
          rw [List.foldl_cons]
          exact hih
    · rw [List.filter_cons, if_neg (by simpa using hq)]
      rw [List.foldl_cons, hih, pyDictGet_pyDictSet, if_neg (fun h => hq h.symm)]

theorem sumMetricsFrom_items :
    ∀ (grp : List (ParsedLoadJobFileName × DataWriterMetrics)) (acc : DataWriterMetrics),
      (grp.foldl (fun a p => a.add p.2) acc).items_count =
        acc.items_count + (grp.map (fun p => p.2.items_count)).sum := by
  intro grp
  induction grp with
  | nil => intro acc; simp
  | cons p rest ih =>
    intro acc
    rw [List.foldl_cons, ih]
    simp only [List.map_cons, List.sum_cons, DataWriterMetrics.add]
    omega

theorem sumMetrics_items (grp : List (ParsedLoadJobFileName × DataWriterMetrics)) :
    (sumMetrics grp).items_count = (grp.map (fun p => p.2.items_count)).sum := by
  rw [sumMetrics, sumMetricsFrom_items]
  simp [EMPTY_DATA_WRITER_METRICS]

/-- Every value stored in `table_metrics jm` is the sum over one of the
`itertools.groupby` runs, whose entries all carry the looked-up table
name and which is a sublist of the (already deduplicated) job-metrics
items. -/
theorem table_metrics_value_is_run_sum
    (jm : List (ParsedLoadJobFileName × DataWriterMetrics)) (t : String)
    (v : DataWriterMetrics) (h : pyDictGet (table_metrics jm) t = some v) :
    ∃ run, run ∈ runsBy (fun p => p.1.table_name) jm ∧ run.1 = t ∧
      v = sumMetrics run.2 := by
  rw [table_metrics] at h
  have hmap : (runsBy (fun p => p.1.table_name) jm).foldl
      (fun d p => pyDictSet d p.1 (sumMetrics p.2)) [] =
      ((runsBy (fun p => p.1.table_name) jm).map
        (fun p => (p.1, sumMetrics p.2))).foldl (fun d q => pyDictSet d q.1 q.2) [] := by
    rw [List.foldl_map]
  rw [hmap, pyDictGet_foldl_pyDictSet] at h
  cases hL : (((runsBy (fun p => p.1.table_name) jm).map
      (fun p => (p.1, sumMetrics p.2))).filter (fun q => decide (q.1 = t))).getLast? with
  | none =>
    rw [hL] at h
    simp [Option.elim, pyDictGet_nil] at h
  | some pr =>
    rw [hL] at h
    simp only [Option.elim_some] at h
    have hmem : pr ∈ ((runsBy (fun p => p.1.table_name) jm).map
        (fun p => (p.1, sumMetrics p.2))).filter (fun q => decide (q.1 = t)) :=
      List.mem_of_getLast?_eq_some hL
    have hkey : pr.1 = t := by
      have := List.of_mem_filter hmem
      simpa using this
    have hpairs : pr ∈ (runsBy (fun p => p.1.table_name) jm).map
        (fun p => (p.1, sumMetrics p.2)) := List.mem_of_mem_filter hmem
    rw [List.mem_map] at hpairs
    obtain ⟨run, hrun, hpr⟩ := hpairs
    refine ⟨run, hrun, ?_, ?_⟩
    · rw [← hkey, ← hpr]
    · cases h
      rw [← hpr]

/-! ### Claims C2 and C9 -/

/-- C2 counterexample: with writer metrics for files `a.1.x`, `b.1.x`,
`a.2.x` (one item each, in that order), the two `a` entries are not
adjacent, so `itertools.groupby` emits two runs for table `a` and the dict
comprehension keeps only the last: the aggregated items count for table
`a` is 1, while the sum over all records of table `a` is 2. -/
theorem C2_table_metrics_counterexample :
    job_metrics [⟨"a.1.x", 1⟩, ⟨"b.1.x", 1⟩, ⟨"a.2.x", 1⟩] =
      some [(⟨"a", "1", "x"⟩, ⟨"a.1.x", 1⟩), (⟨"b", "1", "x"⟩, ⟨"b.1.x", 1⟩),
        (⟨"a", "2", "x"⟩, ⟨"a.2.x", 1⟩)] ∧
    pyDictGet (table_metrics [(⟨"a", "1", "x"⟩, ⟨"a.1.x", 1⟩),
      (⟨"b", "1", "x"⟩, ⟨"b.1.x", 1⟩), (⟨"a", "2", "x"⟩, ⟨"a.2.x", 1⟩)]) "a" =
      some ⟨"", 1⟩ ∧
    (([⟨"a.1.x", 1⟩, ⟨"b.1.x", 1⟩, ⟨"a.2.x", 1⟩] :
        List DataWriterMetrics).filter (fun m =>
          decide ((ParsedLoadJobFileName.parse m.file_path).map
            ParsedLoadJobFileName.table_name = some "a"))).length = 2 ∧
    (([⟨"a.1.x", 1⟩, ⟨"b.1.x", 1⟩, ⟨"a.2.x", 1⟩] :
        List DataWriterMetrics).filter (fun m =>
          decide ((ParsedLoadJobFileName.parse m.file_path).map
            ParsedLoadJobFileName.table_name = some "a"))).foldl
        (fun acc m => acc + m.items_count) 0 = 2 ∧
    (⟨"", 1⟩ : DataWriterMetrics).items_count ≠ 2 := by
  refine ⟨by decide, by decide, by decide, by decide, by decide⟩

/-- C2 (amended): per-table aggregated items counts are additive over the
deduplicated job metrics, provided every table appears in a single
`groupby` run, i.e. the deduplicated entries of each table are adjacent
(always true when the writer metrics arrive grouped by table): then for
every table in the dict, the aggregated items count equals the sum of the
items counts of the deduplicated entries of that table. -/
theorem C2_table_metrics_additive_when_grouped (ms : List DataWriterMetrics)
    (jm : List (ParsedLoadJobFileName × DataWriterMetrics))
    (h : job_metrics ms = some jm)
    (hgrp : ((runsBy (fun p => p.1.table_name) jm).map Prod.fst).Nodup) :
    ∀ t v, pyDictGet (table_metrics jm) t = some v →
      v.items_count =
        ((jm.filter (fun p => decide (p.1.table_name = t))).map
          (fun p => p.2.items_count)).sum := by
  intro t v hv
  obtain ⟨run, hrun, hkey, hval⟩ := table_metrics_value_is_run_sum jm t v hv
  have hfil : jm.filter (fun p => decide (p.1.table_name = t)) = run.2 := by
    have := runsBy_filter (fun p => p.1.table_name) jm hgrp run hrun
    rw [hkey] at this
    exact this
  rw [hfil, hval, sumMetrics_items]

/-- C2 amended witness: a grouped instance (tables `a` then `b`, each
contiguous) where the per-table aggregates equal the sums. -/
theorem C2_table_metrics_additive_when_grouped_witness :
    (job_metrics [⟨"a.1.x", 2⟩, ⟨"a.2.x", 3⟩, ⟨"b.1.x", 5⟩] =
      some [(⟨"a", "1", "x"⟩, ⟨"a.1.x", 2⟩), (⟨"a", "2", "x"⟩, ⟨"a.2.x", 3⟩),
        (⟨"b", "1", "x"⟩, ⟨"b.1.x", 5⟩)]) ∧
    ((runsBy (fun p => p.1.table_name)
        ([(⟨"a", "1", "x"⟩, ⟨"a.1.x", 2⟩), (⟨"a", "2", "x"⟩, ⟨"a.2.x", 3⟩),
          (⟨"b", "1", "x"⟩, ⟨"b.1.x", 5⟩)] :
            List (ParsedLoadJobFileName × DataWriterMetrics))).map Prod.fst).Nodup ∧
    (∀ t v, pyDictGet (table_metrics
        [(⟨"a", "1", "x"⟩, ⟨"a.1.x", 2⟩), (⟨"a", "2", "x"⟩, ⟨"a.2.x", 3⟩),
          (⟨"b", "1", "x"⟩, ⟨"b.1.x", 5⟩)]) t = some v →
      v.items_count =
        ((([(⟨"a", "1", "x"⟩, ⟨"a.1.x", 2⟩), (⟨"a", "2", "x"⟩, ⟨"a.2.x", 3⟩),
          (⟨"b", "1", "x"⟩, ⟨"b.1.x", 5⟩)] :
            List (ParsedLoadJobFileName × DataWriterMetrics)).filter
            (fun p => decide (p.1.table_name = t))).map
          (fun p => p.2.items_count)).sum) :=
  ⟨by decide, by decide,
    C2_table_metrics_additive_when_grouped
      [⟨"a.1.x", 2⟩, ⟨"a.2.x", 3⟩, ⟨"b.1.x", 5⟩]
      [(⟨"a", "1", "x"⟩, ⟨"a.1.x", 2⟩), (⟨"a", "2", "x"⟩, ⟨"a.2.x", 3⟩),
        (⟨"b", "1", "x"⟩, ⟨"b.1.x", 5⟩)]
      (by decide) (by decide)⟩

/-- C9: `spool_files` keys the writer metrics by parsed job file name with
python dict semantics, so (1) each parsed file name owns exactly one
job-metrics entry, (2) that entry is the last writer-metric record carrying
that file name — earlier duplicates never contribute, and (3) every
per-table aggregate is the sum over a sublist of the deduplicated entries
of that table, so a duplicated record is never summed twice. -/
theorem C9_job_metrics_last_wins (ms : List DataWriterMetrics)
    (jm : List (ParsedLoadJobFileName × DataWriterMetrics))
    (h : job_metrics ms = some jm) :
    (jm.map Prod.fst).Nodup ∧
    (∀ k v, pyDictGet jm k = some v →
      (ms.filter (fun m =>
        decide (ParsedLoadJobFileName.parse m.file_path = some k))).getLast? = some v) ∧
    (∀ t v, pyDictGet (table_metrics jm) t = some v →
      ∃ sub, sub.Sublist jm ∧ (∀ p ∈ sub, p.1.table_name = t) ∧ v = sumMetrics sub) := by
  refine ⟨jobMetricsFrom_keys_nodup ms [] jm (by simp) h, ?_, ?_⟩
  · intro k v hv
    have hg := jobMetricsFrom_get ms [] jm h k
    cases hL : (ms.filter (fun m =>
        decide (ParsedLoadJobFileName.parse m.file_path = some k))).getLast? with
    | none =>
      rw [hL] at hg
      simp only [Option.elim_none, pyDictGet_nil] at hg
      rw [hg] at hv
      cases hv
    | some x =>
      rw [hL] at hg
      simp only [Option.elim_some] at hg
      rw [hg] at hv
      cases hv
      rfl
  · intro t v hv
    obtain ⟨run, hrun, hkey, hval⟩ := table_metrics_value_is_run_sum jm t v hv
    refine ⟨run.2, runsBy_run_sublist (fun p => p.1.table_name) jm run hrun, ?_, hval⟩
    intro p hp
    have := runsBy_run_key (fun p => p.1.table_name) jm run hrun p hp
    rw [← hkey]
    exact this

/-- C9 witness: two records for the same file `a.1.x`; only the last one
(5 items) survives into the job metrics and the table aggregate. -/
theorem C9_job_metrics_last_wins_witness :
    (job_metrics [⟨"a.1.x", 2⟩, ⟨"a.1.x", 5⟩] =
      some [(⟨"a", "1", "x"⟩, ⟨"a.1.x", 5⟩)]) ∧
    (([(⟨"a", "1", "x"⟩, ⟨"a.1.x", 5⟩)].map
        (Prod.fst (α := ParsedLoadJobFileName) (β := DataWriterMetrics))).Nodup ∧
    (∀ k v, pyDictGet [(⟨"a", "1", "x"⟩, ⟨"a.1.x", 5⟩)] k = some v →
      (([⟨"a.1.x", 2⟩, ⟨"a.1.x", 5⟩] : List DataWriterMetrics).filter (fun m =>
        decide (ParsedLoadJobFileName.parse m.file_path = some k))).getLast? = some v) ∧
    (∀ t v, pyDictGet (table_metrics [(⟨"a", "1", "x"⟩, ⟨"a.1.x", 5⟩)]) t = some v →
      ∃ sub, sub.Sublist [(⟨"a", "1", "x"⟩, ⟨"a.1.x", 5⟩)] ∧
        (∀ p ∈ sub, p.1.table_name = t) ∧ v = sumMetrics sub)) :=
  ⟨by decide,
    C9_job_metrics_last_wins [⟨"a.1.x", 2⟩, ⟨"a.1.x", 5⟩]
      [(⟨"a", "1", "x"⟩, ⟨"a.1.x", 5⟩)] (by decide)⟩

/-! ### Lemmas about `pyDictPop` / `pyDictContains` -/

theorem pyDictGet_pop_self [DecidableEq K] (d : List (K × V)) (k : K) :
    pyDictGet (pyDictPop d k) k = none := by
  induction d with
  | nil => rfl
  | cons p ps ih =>
    rw [pyDictPop, List.filter_cons]
    by_cases hp : p.1 = k
    · rw [if_neg (by simp [hp])]
      exact ih
    · rw [if_pos (by simpa using hp), pyDictGet_cons, if_neg hp]
      exact ih

theorem pyDictGet_pop_other [DecidableEq K] (d : List (K × V)) (k k' : K)
    (h : ¬ k' = k) : pyDictGet (pyDictPop d k) k' = pyDictGet d k' := by
  induction d with
  | nil => rfl
  | cons p ps ih =>
    rw [pyDictPop, List.filter_cons]
    by_cases hp : p.1 = k
    · rw [if_neg (by simp [hp]), pyDictGet_cons, if_neg (by rw [hp]; exact fun hc => h hc.symm)]
      exact ih
    · rw [if_pos (by simpa using hp), pyDictGet_cons, pyDictGet_cons]
      by_cases hq : p.1 = k'
      · rw [if_pos hq, if_pos hq]
      · rw [if_neg hq, if_neg hq]
        exact ih

theorem pyDictContains_iff_get [DecidableEq K] (d : List (K × V)) (k : K) :
    pyDictContains d k = (pyDictGet d k).isSome := by
  induction d with
  | nil => rfl
  | cons p ps ih =>
    rw [pyDictContains, List.any_cons, pyDictGet_cons]
    by_cases hp : p.1 = k
    · rw [if_pos hp]
      simp [hp]
    · rw [if_neg hp]
      have hdec : decide (p.1 = k) = false := by simp [hp]
      rw [hdec, Bool.false_or, ← pyDictContains]
      exact ih

/-- Full behaviour of the x-normalizer update on one dict: the one-shot
key is dropped, `seen-data` is written as true only when absent, and every
other key keeps its value. -/
theorem update_x_normalizer_spec (x : List (String × Bool)) :
    pyDictGet (update_x_normalizer x) "evolve-columns-once" = none ∧
    (pyDictGet x "seen-data" = none →
      pyDictGet (update_x_normalizer x) "seen-data" = some true) ∧
    (∀ b, pyDictGet x "seen-data" = some b →
      pyDictGet (update_x_normalizer x) "seen-data" = some b) ∧
    (∀ k, ¬ k = "evolve-columns-once" → ¬ k = "seen-data" →
      pyDictGet (update_x_normalizer x) k = pyDictGet x k) := by
  have hsd : ¬ ("seen-data" : String) = "evolve-columns-once" := by decide
  refine ⟨?_, ?_, ?_, ?_⟩
  · rw [update_x_normalizer]
    by_cases hc : pyDictContains (pyDictPop x "evolve-columns-once") "seen-data"
    · rw [if_pos hc]
      exact pyDictGet_pop_self x _
    · rw [if_neg hc, pyDictGet_pyDictSet, if_neg (by decide)]
      exact pyDictGet_pop_self x _
  · intro habs
    rw [update_x_normalizer]
    have hget : pyDictGet (pyDictPop x "evolve-columns-once") "seen-data" = none := by
      rw [pyDictGet_pop_other x _ _ hsd]
      exact habs
    have hc : pyDictContains (pyDictPop x "evolve-columns-once") "seen-data" = false := by
      rw [pyDictContains_iff_get, hget]
      rfl
    rw [if_neg (by simp [hc]), pyDictGet_pyDictSet, if_pos rfl]
  · intro b hb
    rw [update_x_normalizer]
    have hget : pyDictGet (pyDictPop x "evolve-columns-once") "seen-data" = some b := by
      rw [pyDictGet_pop_other x _ _ hsd]
      exact hb
    have hc : pyDictContains (pyDictPop x "evolve-columns-once") "seen-data" = true := by
      rw [pyDictContains_iff_get, hget]
      rfl
    rw [if_pos hc]
    exact hget
  · intro k hkevo hksd
    rw [update_x_normalizer]
    by_cases hc : pyDictContains (pyDictPop x "evolve-columns-once") "seen-data"
    · rw [if_pos hc]
      exact pyDictGet_pop_other x _ _ hkevo
    · rw [if_neg hc, pyDictGet_pyDictSet, if_neg hksd]
      exact pyDictGet_pop_other x _ _ hkevo

/-- Behaviour of the update loop: each listed table is present and is
replaced by its update; unlisted tables keep their entries. -/
theorem spool_update_tables_spec [DecidableEq K] :
    ∀ (tns : List K) (schema schema' : List (K × TTableSchema)), tns.Nodup →
      spool_update_tables schema tns = some schema' →
      (∀ tn ∈ tns, ∃ t, pyDictGet schema tn = some t ∧
        pyDictGet schema' tn = some (spool_update_table t)) ∧
      (∀ tn, tn ∉ tns → pyDictGet schema' tn = pyDictGet schema tn) := by
  intro tns
  induction tns with
  | nil =>
    intro schema schema' _ h
    rw [spool_update_tables] at h
    cases h
    exact ⟨by simp, fun tn _ => rfl⟩
  | cons tn rest ih =>
    intro schema schema' hnd h
    rw [spool_update_tables] at h
    cases hget : pyDictGet schema tn with
    | none => rw [hget] at h; cases h
    | some t =>
      rw [hget] at h
      have hnd' := (List.nodup_cons.mp hnd)
      obtain ⟨hmem, hrest⟩ := ih (pyDictSet schema tn (spool_update_table t)) schema' hnd'.2 h
      constructor
      · intro tn' htn'
        rcases List.mem_cons.mp htn' with rfl | htn'
        · refine ⟨t, hget, ?_⟩
          rw [hrest tn' hnd'.1, pyDictGet_pyDictSet, if_pos rfl]
        · obtain ⟨t', ht'1, ht'2⟩ := hmem tn' htn'
          refine ⟨t', ?_, ht'2⟩
          rw [pyDictGet_pyDictSet] at ht'1
          by_cases he : tn' = tn
          · rw [he] at htn'
            exact absurd htn' hnd'.1
          · rw [if_neg he] at ht'1
            exact ht'1
      · intro tn' htn'
        have h1 : tn' ∉ rest := fun hc => htn' (List.mem_cons.mpr (Or.inr hc))
        have h2 : ¬ tn' = tn := fun hc => htn' (by rw [hc]; exact List.mem_cons_self tn rest)
        rw [hrest tn' h1, pyDictGet_pyDictSet, if_neg h2]

theorem keys_nodup_foldl_pyDictSet [DecidableEq K] :
    ∀ (pairs : List (K × V)) (d : List (K × V)), (d.map Prod.fst).Nodup →
      ((pairs.foldl (fun d q => pyDictSet d q.1 q.2) d).map Prod.fst).Nodup := by
  intro pairs
  induction pairs with
  | nil => intro d hd; exact hd
  | cons q rest ih =>
    intro d hd
    exact ih (pyDictSet d q.1 q.2) (keys_nodup_pyDictSet d q.1 q.2 hd)

theorem table_metrics_keys_nodup (jm : List (ParsedLoadJobFileName × DataWriterMetrics)) :
    ((table_metrics jm).map Prod.fst).Nodup := by
  rw [table_metrics]
  have hmap : (runsBy (fun p => p.1.table_name) jm).foldl
      (fun d p => pyDictSet d p.1 (sumMetrics p.2)) [] =
      ((runsBy (fun p => p.1.table_name) jm).map
        (fun p => (p.1, sumMetrics p.2))).foldl (fun d q => pyDictSet d q.1 q.2) [] := by
    rw [List.foldl_map]
  rw [hmap]
  exact keys_nodup_foldl_pyDictSet _ [] (by simp)

/-! ### Claims C7 and C10 -/

/-- C7 counterexample: a table whose x-normalizer already holds
`seen-data = false` keeps that value: `spool_files` does not set
`seen-data` to true for it (the guard on line 406 skips the write). -/
theorem C7_x_normalizer_counterexample :
    ((table_metrics [(⟨"a", "1", "x"⟩, ⟨"a.1.x", 1⟩)]).map Prod.fst) = ["a"] ∧
    spool_update_tables [("a", ⟨some [("seen-data", false)], ["c1"]⟩)]
        ((table_metrics [(⟨"a", "1", "x"⟩, ⟨"a.1.x", 1⟩)]).map Prod.fst) =
      some [("a", ⟨some [("seen-data", false)], ["c1"]⟩)] ∧
    (∀ t : TTableSchema,
      pyDictGet [("a", (⟨some [("seen-data", false)], ["c1"]⟩ : TTableSchema))] "a" =
        some t →
      pyDictGet (t.x_normalizer.getD []) "seen-data" = some false) ∧
    (some false ≠ some true) := by
  refine ⟨by decide, by decide, by decide, by decide⟩

/-- C7 (amended): after a successful mapper run, for every table that
appears in the per-table metrics `spool_files` removes
`evolve-columns-once` from the x-normalizer of the table and sets `seen-data`
to true when the key is absent; an already-present `seen-data` value is
left as it is. -/
theorem C7_x_normalizer_update
    (schema schema' : List (String × TTableSchema))
    (jm : List (ParsedLoadJobFileName × DataWriterMetrics))
    (h : spool_update_tables schema ((table_metrics jm).map Prod.fst) = some schema') :
    ∀ tn ∈ (table_metrics jm).map Prod.fst, ∃ t t', pyDictGet schema tn = some t ∧
      pyDictGet schema' tn = some t' ∧
      pyDictGet (t'.x_normalizer.getD []) "evolve-columns-once" = none ∧
      (pyDictGet (t.x_normalizer.getD []) "seen-data" = none →
        pyDictGet (t'.x_normalizer.getD []) "seen-data" = some true) ∧
      (∀ b, pyDictGet (t.x_normalizer.getD []) "seen-data" = some b →
        pyDictGet (t'.x_normalizer.getD []) "seen-data" = some b) := by
  intro tn htn
  obtain ⟨hmem, _⟩ := spool_update_tables_spec ((table_metrics jm).map Prod.fst)
    schema schema' (table_metrics_keys_nodup jm) h
  obtain ⟨t, ht1, ht2⟩ := hmem tn htn
  obtain ⟨hevo, habs, hpres, _⟩ := update_x_normalizer_spec (t.x_normalizer.getD [])
  exact ⟨t, spool_update_table t, ht1, ht2, hevo, habs, hpres⟩

/-- C7 witness: a table with no prior `seen-data` gains `seen-data = true`
and loses `evolve-columns-once`. -/
theorem C7_x_normalizer_update_witness :
    spool_update_tables [("a", (⟨some [("evolve-columns-once", true)], ["c1"]⟩ :
        TTableSchema))]
        ((table_metrics [(⟨"a", "1", "x"⟩, ⟨"a.1.x", 1⟩)]).map Prod.fst) =
      some [("a", ⟨some [("seen-data", true)], ["c1"]⟩)] ∧
    (∀ tn ∈ (table_metrics [(⟨"a", "1", "x"⟩, ⟨"a.1.x", 1⟩)]).map Prod.fst,
      ∃ t t',
      pyDictGet [("a", (⟨some [("evolve-columns-once", true)], ["c1"]⟩ :
        TTableSchema))] tn = some t ∧
      pyDictGet [("a", (⟨some [("seen-data", true)], ["c1"]⟩ : TTableSchema))] tn =
        some t' ∧
      pyDictGet (t'.x_normalizer.getD []) "evolve-columns-once" = none ∧
      (pyDictGet (t.x_normalizer.getD []) "seen-data" = none →
        pyDictGet (t'.x_normalizer.getD []) "seen-data" = some true) ∧
      (∀ b, pyDictGet (t.x_normalizer.getD []) "seen-data" = some b →
        pyDictGet (t'.x_normalizer.getD []) "seen-data" = some b)) :=
  ⟨by decide,
    C7_x_normalizer_update
      [("a", ⟨some [("evolve-columns-once", true)], ["c1"]⟩)]
      [("a", ⟨some [("seen-data", true)], ["c1"]⟩)]
      [(⟨"a", "1", "x"⟩, ⟨"a.1.x", 1⟩)] (by decide)⟩

/-- C10: an existing `seen-data` value is left unchanged (`spool_files`
writes `seen-data = true` only when the key is absent), every x-normalizer
key other than `evolve-columns-once` and an absent `seen-data` keeps its
value, the rest of the table schema is untouched, and tables outside the
per-table metrics are untouched. -/
theorem C10_x_normalizer_frame
    (schema schema' : List (String × TTableSchema))
    (jm : List (ParsedLoadJobFileName × DataWriterMetrics))
    (h : spool_update_tables schema ((table_metrics jm).map Prod.fst) = some schema') :
    (∀ tn ∈ (table_metrics jm).map Prod.fst, ∃ t t', pyDictGet schema tn = some t ∧
      pyDictGet schema' tn = some t' ∧
      (∀ b, pyDictGet (t.x_normalizer.getD []) "seen-data" = some b →
        pyDictGet (t'.x_normalizer.getD []) "seen-data" = some b) ∧
      (∀ k, ¬ k = "evolve-columns-once" → ¬ k = "seen-data" →
        pyDictGet (t'.x_normalizer.getD []) k =
          pyDictGet (t.x_normalizer.getD []) k) ∧
      t'.columns = t.columns) ∧
    (∀ tn, tn ∉ (table_metrics jm).map Prod.fst →
      pyDictGet schema' tn = pyDictGet schema tn) := by
  obtain ⟨hmem, hout⟩ := spool_update_tables_spec ((table_metrics jm).map Prod.fst)
    schema schema' (table_metrics_keys_nodup jm) h
  refine ⟨?_, hout⟩
  intro tn htn
  obtain ⟨t, ht1, ht2⟩ := hmem tn htn
  obtain ⟨_, _, hpres, hframe⟩ := update_x_normalizer_spec (t.x_normalizer.getD [])
  exact ⟨t, spool_update_table t, ht1, ht2, hpres, hframe, rfl⟩

/-- C10 witness: a table with `seen-data = false` and an extra custom key
keeps both across the update; an unlisted table is untouched. -/
theorem C10_x_normalizer_frame_witness :
    spool_update_tables
        [("a", (⟨some [("seen-data", false), ("custom", true)], ["c1"]⟩ :
          TTableSchema)), ("b", ⟨none, ["c2"]⟩)]
        ((table_metrics [(⟨"a", "1", "x"⟩, ⟨"a.1.x", 1⟩)]).map Prod.fst) =
      some [("a", ⟨some [("seen-data", false), ("custom", true)], ["c1"]⟩),
        ("b", ⟨none, ["c2"]⟩)] ∧
    ((∀ tn ∈ (table_metrics [(⟨"a", "1", "x"⟩, ⟨"a.1.x", 1⟩)]).map Prod.fst,
      ∃ t t',
      pyDictGet [("a", (⟨some [("seen-data", false), ("custom", true)], ["c1"]⟩ :
        TTableSchema)), ("b", ⟨none, ["c2"]⟩)] tn = some t ∧
      pyDictGet [("a", (⟨some [("seen-data", false), ("custom", true)], ["c1"]⟩ :
        TTableSchema)), ("b", ⟨none, ["c2"]⟩)] tn = some t' ∧
      (∀ b, pyDictGet (t.x_normalizer.getD []) "seen-data" = some b →
        pyDictGet (t'.x_normalizer.getD []) "seen-data" = some b) ∧
      (∀ k, ¬ k = "evolve-columns-once" → ¬ k = "seen-data" →
        pyDictGet (t'.x_normalizer.getD []) k =
          pyDictGet (t.x_normalizer.getD []) k) ∧
      t'.columns = t.columns) ∧
    (∀ tn, tn ∉ (table_metrics [(⟨"a", "1", "x"⟩, ⟨"a.1.x", 1⟩)]).map Prod.fst →
      pyDictGet [("a", (⟨some [("seen-data", false), ("custom", true)], ["c1"]⟩ :
        TTableSchema)), ("b", ⟨none, ["c2"]⟩)] tn =
      pyDictGet [("a", (⟨some [("seen-data", false), ("custom", true)], ["c1"]⟩ :
        TTableSchema)), ("b", ⟨none, ["c2"]⟩)] tn)) :=
  ⟨by decide,
    C10_x_normalizer_frame
      [("a", ⟨some [("seen-data", false), ("custom", true)], ["c1"]⟩),
        ("b", ⟨none, ["c2"]⟩)]
      [("a", ⟨some [("seen-data", false), ("custom", true)], ["c1"]⟩),
        ("b", ⟨none, ["c2"]⟩)]
      [(⟨"a", "1", "x"⟩, ⟨"a.1.x", 1⟩)] (by decide)⟩

/-! ### Claims C3, C4, C6 and C8 -/

/-- C3: when the parallel `spool_files` raises a coercion conflict,
`spool_schema_files` deletes the new load package, re-imports the
extracted package and reruns `spool_files` with the single mapper over
the same file list; when the single rerun raises again, that exception
propagates with no further storage action or retry, and when it succeeds
the load id is returned. -/
theorem C3_spool_schema_files_fallback
    (spool_outcome : MapKind → List String → Option CoercionExc)
    (load_id : String) (files : List String) (e : CoercionExc)
    (hpar : spool_outcome .parallel files = some e) :
    (spool_schema_files spool_outcome load_id files).1 =
      [SpoolEvent.delete_new_package true, SpoolEvent.import_extracted_package,
        SpoolEvent.spool_files_run .parallel files,
        SpoolEvent.delete_new_package false, SpoolEvent.import_extracted_package,
        SpoolEvent.spool_files_run .single files] ∧
    (spool_outcome .single files = none →
      (spool_schema_files spool_outcome load_id files).2 = .ok load_id) ∧
    (∀ e2, spool_outcome .single files = some e2 →
      (spool_schema_files spool_outcome load_id files).2 = .error e2) := by
  refine ⟨?_, ?_, ?_⟩
  · rw [spool_schema_files, hpar]
    cases hs : spool_outcome .single files <;> rfl
  · intro hs
    rw [spool_schema_files, hpar, hs]
  · intro e2 hs
    rw [spool_schema_files, hpar, hs]

/-- C3 witness: parallel conflicts, single conflicts again — the trace
shows delete, re-import, single rerun over the same files, and the second
exception escapes. -/
theorem C3_spool_schema_files_fallback_witness :
    ((fun _ _ => some ⟨"conflict"⟩ : MapKind → List String → Option CoercionExc)
        .parallel ["t.0.jsonl", "t.1.jsonl"] = some ⟨"conflict"⟩) ∧
    ((spool_schema_files (fun _ _ => some ⟨"conflict"⟩) "load1"
        ["t.0.jsonl", "t.1.jsonl"]).1 =
      [SpoolEvent.delete_new_package true, SpoolEvent.import_extracted_package,
        SpoolEvent.spool_files_run .parallel ["t.0.jsonl", "t.1.jsonl"],
        SpoolEvent.delete_new_package false, SpoolEvent.import_extracted_package,
        SpoolEvent.spool_files_run .single ["t.0.jsonl", "t.1.jsonl"]] ∧
    (((fun _ _ => some ⟨"conflict"⟩ : MapKind → List String → Option CoercionExc)
        .single ["t.0.jsonl", "t.1.jsonl"] = none) →
      (spool_schema_files (fun _ _ => some ⟨"conflict"⟩) "load1"
        ["t.0.jsonl", "t.1.jsonl"]).2 = .ok "load1") ∧
    (∀ e2, ((fun _ _ => some ⟨"conflict"⟩ :
        MapKind → List String → Option CoercionExc)
        .single ["t.0.jsonl", "t.1.jsonl"] = some e2) →
      (spool_schema_files (fun _ _ => some ⟨"conflict"⟩) "load1"
        ["t.0.jsonl", "t.1.jsonl"]).2 = .error e2)) :=
  ⟨rfl, C3_spool_schema_files_fallback (fun _ _ => some ⟨"conflict"⟩) "load1"
    ["t.0.jsonl", "t.1.jsonl"] ⟨"conflict"⟩ rfl⟩

/-- C4: when applying the schema updates of a completed worker raises a
coercion conflict, the mapper deletes exactly the files listed in the
file metrics of that worker, resubmits the job with parameters identical
to the original except that the schema snapshot is replaced by a fresh
snapshot of the current live schema, raises nothing, and adds none of the
schema updates or file metrics of that attempt to the summary. -/
theorem C4_conflict_retry (upd : S → P → S × Option E) (to_dict : S → D)
    (file_path : M → String) (schema schema' : S)
    (summary result : TWorkerRV (List (String × List P)) M)
    (params : WParams C NC LC D) (e : E)
    (hupd : update_table upd schema result.schema_updates = (schema', some e)) :
    on_task_done upd to_dict file_path schema summary params (.ok result) =
      ⟨summary, schema', result.file_metrics.map file_path,
        some ⟨params.config, params.normalize_storage_config,
          params.load_storage_config, to_dict schema', params.load_id,
          params.files⟩, none⟩ := by
  rw [on_task_done, hupd]

/-- C4 witness: a concrete conflicting update (schema is a counter, every
partial raises) deletes the two files of the worker and resubmits with the
fresh snapshot, leaving the summary empty. -/
theorem C4_conflict_retry_witness :
    update_table (fun (s : Nat) (_ : Unit) => (s + 1, some ()))
        (0 : Nat) [[("t", [()])]] = (1, some ()) ∧
    on_task_done (fun (s : Nat) (_ : Unit) => (s + 1, some ()))
        (fun s => s) (fun m : DataWriterMetrics => m.file_path) 0
        ⟨[], []⟩ ⟨(), (), (), 99, "load1", ["t.0.x", "t.1.x"]⟩
        (.ok ⟨[[("t", [()])]], [⟨"t.0.x", 1⟩, ⟨"t.1.x", 2⟩]⟩) =
      ⟨⟨[], []⟩, 1, ["t.0.x", "t.1.x"],
        some ⟨(), (), (), 1, "load1", ["t.0.x", "t.1.x"]⟩, none⟩ :=
  ⟨by decide,
    C4_conflict_retry (fun (s : Nat) (_ : Unit) => (s + 1, some ())) (fun s => s)
      (fun m : DataWriterMetrics => m.file_path) 0 1 ⟨[], []⟩
      (⟨[[("t", [()])]], [⟨"t.0.x", 1⟩, ⟨"t.1.x", 2⟩]⟩ :
        TWorkerRV (List (String × List Unit)) DataWriterMetrics)
      (⟨(), (), (), 99, "load1", ["t.0.x", "t.1.x"]⟩ : WParams Unit Unit Unit Nat)
      () (by decide)⟩

/-- C6: when the task at the head of the queue completed with an
exception, the loop first extends the file metrics of the summary with the
partial writer metrics if the exception is `NormalizeJobFailed` (and
leaves the summary untouched otherwise), and then the exception is
re-raised out of `map_parallel` — the loop stops, no file is deleted and
nothing is resubmitted, so a worker failure is never retried. -/
theorem C6_job_failed_aborts (upd : S → P → S × Option E) (to_dict : S → D)
    (file_path : M → String)
    (exec : WParams C NC LC D →
      Except (WorkerExc M) (TWorkerRV (List (String × List P)) M))
    (fuel : Nat) (schema : S) (summary : TWorkerRV (List (String × List P)) M)
    (params : WParams C NC LC D) (rest : List (WParams C NC LC D))
    (deleted : List String) :
    (∀ lid jid cause wm, exec params = .error (.jobFailed lid jid cause wm) →
      map_parallel_loop upd to_dict file_path exec (fuel + 1) schema summary
          (params :: rest) deleted =
        .raised (.jobFailed lid jid cause wm)
          ⟨summary.schema_updates, summary.file_metrics ++ wm⟩ schema deleted) ∧
    (∀ cause, exec params = .error (.other cause) →
      map_parallel_loop upd to_dict file_path exec (fuel + 1) schema summary
          (params :: rest) deleted =
        .raised (.other cause) summary schema deleted) := by
  constructor
  · intro lid jid cause wm hexec
    rw [map_parallel_loop, hexec]
    simp [on_task_done]
  · intro cause hexec
    rw [map_parallel_loop, hexec]
    simp [on_task_done]

/-- C6 witness: a failed worker partial metrics are drained into the
summary and the failure aborts the loop without any retry. -/
theorem C6_job_failed_aborts_witness :
    ((fun _ => .error (.jobFailed "load1" "job1" "boom" [⟨"t.0.x", 1⟩]) :
        WParams Unit Unit Unit Nat →
          Except (WorkerExc DataWriterMetrics)
            (TWorkerRV (List (String × List Unit)) DataWriterMetrics))
        ⟨(), (), (), 0, "load1", ["t.0.x"]⟩ =
      .error (.jobFailed "load1" "job1" "boom" [⟨"t.0.x", 1⟩])) ∧
    map_parallel_loop (fun (s : Nat) (_ : Unit) => (s, none (α := Unit)))
        (fun s => s) (fun m : DataWriterMetrics => m.file_path)
        (fun _ => .error (.jobFailed "load1" "job1" "boom" [⟨"t.0.x", 1⟩]))
        3 0 ⟨[], [⟨"old.1.x", 7⟩]⟩ [⟨(), (), (), 0, "load1", ["t.0.x"]⟩] [] =
      .raised (.jobFailed "load1" "job1" "boom" [⟨"t.0.x", 1⟩])
        ⟨[], [⟨"old.1.x", 7⟩, ⟨"t.0.x", 1⟩]⟩ 0 [] :=
  ⟨rfl,
    (C6_job_failed_aborts (fun (s : Nat) (_ : Unit) => (s, none (α := Unit)))
      (fun s => s) (fun m : DataWriterMetrics => m.file_path)
      (fun _ => .error (.jobFailed "load1" "job1" "boom" [⟨"t.0.x", 1⟩]))
      2 0 ⟨[], [⟨"old.1.x", 7⟩]⟩ ⟨(), (), (), 0, "load1", ["t.0.x"]⟩ [] []).1
      "load1" "job1" "boom" [⟨"t.0.x", 1⟩] rfl⟩

/-- C8 counterexample: with one non-empty package, `run` processes it and
returns run metrics whose first field (`done` in the reading of the spec) is
false, not true as claimed — the code passes `False` positionally on
line 517. -/
theorem C8_run_metrics_counterexample :
    (run (fun load_id _files st => delete_package st load_id)
        ⟨[("load1", ["a.1.x"])]⟩).2 = ⟨false, 0⟩ ∧
    ¬ (run (fun load_id _files st => delete_package st load_id)
        ⟨[("load1", ["a.1.x"])]⟩).2.done = true := by
  refine ⟨by decide, by decide⟩

/-- C8 (amended): after processing every enumerated extracted package,
`run` returns metrics with the first field false and pending equal to the
number of extracted packages remaining in storage at that point; the
first field is true (with pending 0) only on the early return when no
package was found. -/
theorem C8_run_metrics
    (spool : String → List String → NormStorageState → NormStorageState)
    (st : NormStorageState) :
    (st.extracted_packages = [] → (run spool st).2 = ⟨true, 0⟩) ∧
    (st.extracted_packages ≠ [] →
      (run spool st).2 =
        ⟨false, (run spool st).1.extracted_packages.length⟩) := by
  constructor
  · intro h
    rw [run, if_pos (by simp [h])]
  · intro h
    rw [run, if_neg (by simp [h])]

/-- C8 witness: one package present, so the metrics are
`(false, remaining)`. -/
theorem C8_run_metrics_witness :
    ((⟨[("load1", ["a.1.x"])]⟩ : NormStorageState).extracted_packages ≠ []) ∧
    (run (fun load_id _files st => delete_package st load_id)
        ⟨[("load1", ["a.1.x"])]⟩).2 =
      ⟨false, (run (fun load_id _files st => delete_package st load_id)
        ⟨[("load1", ["a.1.x"])]⟩).1.extracted_packages.length⟩ :=
  ⟨by decide,
    (C8_run_metrics (fun load_id _files st => delete_package st load_id)
      ⟨[("load1", ["a.1.x"])]⟩).2 (by decide)⟩

end DltNormalize
